import Mathlib

/-!
Verification of a Barnes-Hut t-SNE embedding engine (shallow embedding of the
TypeScript source).

Conventions used throughout: the JavaScript `number` type is embedded as `ℚ`
(exact arithmetic; the floating-point tolerances of the specification are
subsumed by exact equalities), a `Float64Array` becomes a total function
`ℕ → ℚ`, and the transcendental library routines `Math.exp`, `Math.log` and
`Math.sqrt` become explicit function parameters (`expFn`, `logFn`, `sqrtFn`)
so that every definition stays computable and the control flow of the source
is preserved verbatim.  Fallible code returns `Except`/`Option`.
-/

namespace TSNE

/-- Source: `THETA = 0.8`, the Barnes-Hut approximation level. -/
def THETA : ℚ := 8/10

/-- Source: `MIN_POSSIBLE_PROB = 1E-9`. -/
def MIN_POSSIBLE_PROB : ℚ := 1/1000000000

/-- Source `sign`: `x > 0 ? 1 : x < 0 ? -1 : 0`. -/
def sign (x : ℚ) : ℚ :=
  if x > 0 then 1 else if x < 0 then -1 else 0

/-- Source `dist2` (lines 65-76): squared euclidean distance with an explicit
length guard; the thrown `Error` becomes `Except.error`. -/
def dist2 (a b : List ℚ) : Except String ℚ :=
  if a.length ≠ b.length then .error "Vectors a and b must be of same length"
  else .ok (((List.range a.length).map
    (fun i => (a.getD i 0 - b.getD i 0) * (a.getD i 0 - b.getD i 0))).sum)

/-- Source `dist2_2D` (lines 79-83): no length validation, reads the first two
coordinates.  Out-of-range JS indexing yields `undefined` (no exception), which
the embedding renders with the `getD` default; theorems about length mismatch
only use inputs whose read coordinates exist. -/
def dist2_2D (a b : List ℚ) : ℚ :=
  let dX := a.getD 0 0 - b.getD 0 0
  let dY := a.getD 1 0 - b.getD 1 0
  dX * dX + dY * dY

/-- Source `dist2_3D` (lines 86-91): no length validation, reads the first
three coordinates. -/
def dist2_3D (a b : List ℚ) : ℚ :=
  let dX := a.getD 0 0 - b.getD 0 0
  let dY := a.getD 1 0 - b.getD 1 0
  let dZ := a.getD 2 0 - b.getD 2 0
  dX * dX + dY * dY + dZ * dZ

/-- Source `TSNE` constructor (lines 282-290): the engine binds the kernel for
`dim = 2` or `dim = 3` and fails otherwise. -/
def boundDistKernel (dim : ℕ) : Except String (List ℚ → List ℚ → ℚ) :=
  if dim = 2 then .ok dist2_2D
  else if dim = 3 then .ok dist2_3D
  else .error "Only 2D and 3D is supported"

/-- The kernel a successfully constructed engine uses (`this.dist2`). -/
def distByDim (dim : ℕ) (a b : List ℚ) : ℚ :=
  if dim = 3 then dist2_3D a b else dist2_2D a b

/-- Source `computeForce_2d` (lines 234-238); the in-place mutation of the
first two slots becomes returning the two updated slots. -/
def computeForce_2d (force : List ℚ) (mult : ℚ) (pointA pointB : List ℚ) : List ℚ :=
  [force.getD 0 0 + mult * (pointA.getD 0 0 - pointB.getD 0 0),
   force.getD 1 0 + mult * (pointA.getD 1 0 - pointB.getD 1 0)]

/-- Source `computeForce_3d` (lines 240-245). -/
def computeForce_3d (force : List ℚ) (mult : ℚ) (pointA pointB : List ℚ) : List ℚ :=
  [force.getD 0 0 + mult * (pointA.getD 0 0 - pointB.getD 0 0),
   force.getD 1 0 + mult * (pointA.getD 1 0 - pointB.getD 1 0),
   force.getD 2 0 + mult * (pointA.getD 2 0 - pointB.getD 2 0)]

/-- The force accumulator a successfully constructed engine uses
(`this.computeForce`). -/
def forceByDim (dim : ℕ) (force : List ℚ) (mult : ℚ) (pointA pointB : List ℚ) : List ℚ :=
  if dim = 3 then computeForce_3d force mult pointA pointB
  else computeForce_2d force mult pointA pointB

/-- The module-global state of the Gaussian sampler (source lines 61-62:
`return_v`, `v_val`) together with the read position of the uniform stream. -/
structure GaussSt where
  return_v : Bool
  v_val : ℚ
  k : ℕ
deriving DecidableEq

/-- Source `gaussRandom` (lines 93-108): Marsaglia polar sampling over a
uniform stream `rho`, with the module-global cache passed explicitly and the
unbounded rejection recursion bounded by fuel (`none` = fuel exhausted). -/
def gaussRandom (sqrtFn logFn : ℚ → ℚ) (rho : ℕ → ℚ) :
    ℕ → GaussSt → Option (ℚ × GaussSt)
  | 0, _ => none
  | fuel + 1, g =>
    if g.return_v then some (g.v_val, { g with return_v := false })
    else
      let u := 2 * rho g.k - 1
      let v := 2 * rho (g.k + 1) - 1
      let r := u * u + v * v
      if r = 0 ∨ r > 1 then
        gaussRandom sqrtFn logFn rho fuel { g with k := g.k + 2 }
      else
        let c := sqrtFn (-2 * logFn r / r)
        some (u * c, { return_v := true, v_val := v * c, k := g.k + 2 })

/-- Source `randn` (lines 111-113): `mu + gaussRandom(rng) * std`. -/
def randn (sqrtFn logFn : ℚ → ℚ) (rho : ℕ → ℚ) (fuel : ℕ) (g : GaussSt)
    (mu std : ℚ) : Option (ℚ × GaussSt) :=
  (gaussRandom sqrtFn logFn rho fuel g).map (fun p => (mu + p.1 * std, p.2))

/-- Sequential draws for `randnMatrix` (source lines 122-129): entry order is
the fill order of the flat array. -/
def randnList (sqrtFn logFn : ℚ → ℚ) (rho : ℕ → ℚ) (fuel : ℕ) :
    ℕ → GaussSt → Option (List ℚ × GaussSt)
  | 0, g => some ([], g)
  | n + 1, g =>
    (randn sqrtFn logFn rho fuel g 0 (1/10000)).bind (fun p =>
      (randnList sqrtFn logFn rho fuel n p.2).map (fun q => (p.1 :: q.1, q.2)))

/-- Source `randnMatrix`: `n*d` draws with mean `0` and std `1e-4`, flattened
into a `ℕ → ℚ` array view. -/
def randnMatrix (sqrtFn logFn : ℚ → ℚ) (rho : ℕ → ℚ) (fuel n d : ℕ)
    (g : GaussSt) : Option ((ℕ → ℚ) × GaussSt) :=
  (randnList sqrtFn logFn rho fuel (n * d) g).map
    (fun p => (fun x => p.1.getD x 0, p.2))

/-- Source `arrayofs` (lines 132-138): `n` rows of `[val,val,val]` when
`d = 3`, else `[val,val]`. -/
def arrayofs (n d : ℕ) (val : ℚ) : List (List ℚ) :=
  (List.range n).map (fun _ => if d = 3 then [val, val, val] else [val, val])

/-- One entry of the caller-supplied kNN table: `{index, dist}`. -/
structure Neighbor where
  index : ℕ
  dist : ℚ
deriving DecidableEq

/-- Source lines 165-166 (one raw probability of a calibration trial):
`pij = (i === neighbor.index) ? 0 : Math.exp(-neighbor.dist * beta)` followed
by `pij = Math.max(pij, MIN_POSSIBLE_PROB)`. -/
def rawProb (expFn : ℚ → ℚ) (i : ℕ) (nb : Neighbor) (beta : ℚ) : ℚ :=
  max (if i = nb.index then 0 else expFn (-nb.dist * beta)) MIN_POSSIBLE_PROB

/-- Raw (unnormalized) kernel row of one calibration trial. -/
def rawRow (expFn : ℚ → ℚ) (i : ℕ) (neighbors : List Neighbor) (beta : ℚ) : List ℚ :=
  neighbors.map (fun nb => rawProb expFn i nb beta)

/-- Source lines 160-178, one trial of the per-row calibration loop: raw
probabilities, normalization by their sum `psum`, and the entropy `Hhere`
(terms with `p ≤ 1e-7` are skipped).  Returns `(pRow, Hhere)`. -/
def trialRow (expFn logFn : ℚ → ℚ) (i : ℕ) (neighbors : List Neighbor)
    (beta : ℚ) : List ℚ × ℚ :=
  let raws := rawRow expFn i neighbors beta
  let psum := raws.sum
  let pRow := raws.map (fun p => p / psum)
  let Hhere := (pRow.map (fun p => if p > 1/10000000 then -(p * logFn p) else 0)).sum
  (pRow, Hhere)

/-- Source lines 152-205: binary search over the precision `beta`.  `none`
bounds stand for the `±Infinity` sentinels.  The fuel starts at
`maxTries = 50`, mirroring `numTries`; the returned row is the `pRow` of the
last executed trial (the final bound adjustment is dead on exit, exactly as in
the source, where the loop breaks after adjusting). -/
def betaSearch (expFn logFn : ℚ → ℚ) (Htarget tol : ℚ) (i : ℕ)
    (neighbors : List Neighbor) : ℕ → ℚ → Option ℚ → Option ℚ → List ℚ
  | 0, beta, _, _ => (trialRow expFn logFn i neighbors beta).1
  | fuel + 1, beta, betaMin, betaMax =>
    let t := trialRow expFn logFn i neighbors beta
    if fuel = 0 ∨ |t.2 - Htarget| < tol then t.1
    else if t.2 > Htarget then
      let beta2 := match betaMax with
        | none => beta * 2
        | some bMax => (beta + bMax) / 2
      betaSearch expFn logFn Htarget tol i neighbors fuel beta2 (some beta) betaMax
    else
      let beta2 := match betaMin with
        | none => beta / 2
        | some bMin => (beta + bMin) / 2
      betaSearch expFn logFn Htarget tol i neighbors fuel beta2 betaMin (some beta)

/-- The calibrated row `i` (the final `pRow` written back at lines 208-212):
initial `beta = 1`, infinite bounds, 50 tries, target entropy
`Htarget = log(perplexity)`. -/
def calibRow (expFn logFn : ℚ → ℚ) (perplexity tol : ℚ) (i : ℕ)
    (neighbors : List Neighbor) : List ℚ :=
  betaSearch expFn logFn (logFn perplexity) tol i neighbors 50 1 none none

/-- Pointwise update of a flat matrix (one JS array store). -/
def mupd (m : ℕ → ℚ) (idx : ℕ) (v : ℚ) : ℕ → ℚ :=
  fun x => if x = idx then v else m x

/-- A sequence of array stores, performed left to right. -/
def writes (m : ℕ → ℚ) (ws : List (ℕ × ℚ)) : ℕ → ℚ :=
  ws.foldl (fun acc p => mupd acc p.1 p.2) m

/-- Source lines 208-212: row `i` stores `pRow[k]` at cell
`i*N + neighbors[k].index`. -/
def rowWrites (N i : ℕ) (neighbors : List Neighbor) (pRow : List ℚ) :
    List (ℕ × ℚ) :=
  ((neighbors.map (fun nb => nb.index)).zip pRow).map
    (fun jv => (i * N + jv.1, jv.2))

/-- The temporary probability matrix `P` right before symmetrization (source
lines 146-213): a zero matrix of size `N*N` receiving each calibrated row. -/
def rawP (expFn logFn : ℚ → ℚ) (nearest : List (List Neighbor))
    (perplexity tol : ℚ) : ℕ → ℚ :=
  let N := nearest.length
  writes (fun _ => 0) ((List.range N).flatMap (fun i =>
    rowWrites N i (nearest.getD i [])
      (calibRow expFn logFn perplexity tol i (nearest.getD i []))))

/-- The index pairs `(i, j)` with `i < j < N` in the iteration order of the
symmetrization double loop (source lines 217-218). -/
def pairList (N : ℕ) : List (ℕ × ℕ) :=
  (List.range N).flatMap (fun i =>
    ((List.range N).filter (fun j => i < j)).map (fun j => (i, j)))

/-- Source lines 219-223, the body of the symmetrization loop:
`value = (P[i_j] + P[j_i]) / N2` stored into both cells (`N2 = N * 2`). -/
def symStep (N : ℕ) (m : ℕ → ℚ) (p : ℕ × ℕ) : ℕ → ℚ :=
  let v := (m (p.1 * N + p.2) + m (p.2 * N + p.1)) / ((N : ℚ) * 2)
  mupd (mupd m (p.1 * N + p.2) v) (p.2 * N + p.1) v

/-- Source lines 215-225: the symmetrization pass over all pairs `i < j`. -/
def symmetrize (N : ℕ) (m : ℕ → ℚ) : ℕ → ℚ :=
  (pairList N).foldl (symStep N) m

/-- Source `nearest2P` (lines 141-227): per-row calibration followed by
symmetrization. -/
def nearest2P (expFn logFn : ℚ → ℚ) (nearest : List (List Neighbor))
    (perplexity tol : ℚ) : ℕ → ℚ :=
  symmetrize nearest.length (rawP expFn logFn nearest perplexity tol)

/-- Modelled from the spec: the repository imports `SPNode`/`SPTree` from
`sptree.js`, which is not among the given sources.  Per spec §3/§4.4 a node
carries a stored `point`, a bounding box (of which annotation pass 2 keeps the
first-axis extent `high[0] - low[0]`, carried here as `width`), and `children`:
`null` for a leaf, otherwise a fixed block of `2^D` possibly-null slots. -/
inductive SPNode where
  | mk : List ℚ → ℚ → Option (List (Option SPNode)) → SPNode

def SPNode.point : SPNode → List ℚ
  | .mk p _ _ => p

def SPNode.width : SPNode → ℚ
  | .mk _ w _ => w

def SPNode.children : SPNode → Option (List (Option SPNode))
  | .mk _ _ c => c

/-- The `AugmSPNode` of the source (line 48): a node as seen by `costGrad`
after annotation, carrying `numCells`, `yCell` and `rCell`. -/
inductive AugNode where
  | mk : List ℚ → ℚ → Option (List (Option AugNode)) → ℕ → List ℚ → AugNode

def AugNode.point : AugNode → List ℚ
  | .mk p _ _ _ _ => p

def AugNode.rCell : AugNode → ℚ
  | .mk _ r _ _ _ => r

def AugNode.children : AugNode → Option (List (Option AugNode))
  | .mk _ _ c _ _ => c

def AugNode.numCells : AugNode → ℕ
  | .mk _ _ _ n _ => n

def AugNode.yCell : AugNode → List ℚ
  | .mk _ _ _ _ y => y

mutual

/-- Total number of nodes of a tree (every node of this `sptree.js` variant
stores exactly one inserted point, so this is the point count the annotation
pass accumulates). -/
def countNodes : SPNode → ℕ
  | .mk _ _ none => 1
  | .mk _ _ (some cs) => 1 + countNodesList cs

def countNodesList : List (Option SPNode) → ℕ
  | [] => 0
  | none :: rest => countNodesList rest
  | some c :: rest => countNodes c + countNodesList rest

end

mutual

/-- Source `annotateTree` (lines 384-410).  Returns the annotated node
together with the `{numCells, yCell}` record handed to the parent; for an
internal node the returned `yCell` is the *pre-division* accumulator, exactly
as in the source (line 409 returns `yCell`, not `node.yCell`).  The node's
stored `yCell` is the accumulator divided by `numCells`.  The `rCell` field is
annotation pass 2 (lines 414-417): `high[0] - low[0]`, i.e. the carried
`width`. -/
def annotate (dim : ℕ) : SPNode → AugNode × ℕ × List ℚ
  | .mk point width none => (.mk point width none 1 point, 1, point)
  | .mk point width (some cs) =>
    let r := annotateList dim cs 1 point
    (.mk point width (some r.1) r.2.1 (r.2.2.map (fun v => v / (r.2.1 : ℚ))),
     r.2.1, r.2.2)

/-- The child loop of `annotateTree` (lines 395-405): null slots are skipped,
`numCells` accumulates child counts on top of the node's own `1`, and the
`yCell` accumulator adds the child's returned (pre-division) `yCell`
componentwise over `d < dim`. -/
def annotateList (dim : ℕ) : List (Option SPNode) → ℕ → List ℚ →
    List (Option AugNode) × ℕ × List ℚ
  | [], n, y => ([], n, y)
  | none :: rest, n, y =>
    let r := annotateList dim rest n y
    (none :: r.1, r.2)
  | some c :: rest, n, y =>
    let rc := annotate dim c
    let r := annotateList dim rest (n + rc.2.1)
      ((List.range dim).map (fun d => y.getD d 0 + rc.2.2.getD d 0))
    (some rc.1 :: r.1, r.2)

end

mutual

/-- Source lines 437-457, the Barnes-Hut visitor of the repulsive pass, taking
and returning the running `(Z, FnegZ)` state.  The depth-first traversal
scaffolding (`SPTree.visit`: apply the callback; an accepting callback stops
the descent, otherwise visit the non-null children left to right) is modelled
from the spec §4.4, since `sptree.js` is not among the given sources; the
callback body is embedded verbatim from the source. -/
def repulsiveVisit (dim : ℕ) (sqrtFn : ℚ → ℚ) (pointI : List ℚ) :
    AugNode → ℚ × List ℚ → ℚ × List ℚ
  | .mk pt rCell chOpt m yC, ZF =>
    let squaredDistToCell := distByDim dim pointI yC
    match chOpt with
    | none =>
      let qijZ : ℚ := 1 / (1 + squaredDistToCell)
      let dZ := (m : ℚ) * qijZ
      (ZF.1 + dZ, forceByDim dim ZF.2 (dZ * qijZ) pointI yC)
    | some cs =>
      if squaredDistToCell > 0 ∧ rCell / sqrtFn squaredDistToCell < THETA then
        let qijZ : ℚ := 1 / (1 + squaredDistToCell)
        let dZ := (m : ℚ) * qijZ
        (ZF.1 + dZ, forceByDim dim ZF.2 (dZ * qijZ) pointI yC)
      else
        let squaredDistToPoint := distByDim dim pointI pt
        let qijZ : ℚ := 1 / (1 + squaredDistToPoint)
        repulsiveVisitList dim sqrtFn pointI cs
          (ZF.1 + qijZ, forceByDim dim ZF.2 (qijZ * qijZ) pointI pt)

def repulsiveVisitList (dim : ℕ) (sqrtFn : ℚ → ℚ) (pointI : List ℚ) :
    List (Option AugNode) → ℚ × List ℚ → ℚ × List ℚ
  | [], ZF => ZF
  | none :: rest, ZF => repulsiveVisitList dim sqrtFn pointI rest ZF
  | some c :: rest, ZF =>
    repulsiveVisitList dim sqrtFn pointI rest (repulsiveVisit dim sqrtFn pointI c ZF)

end

/-- Squared euclidean distance written as the spec writes it. -/
def sqDistSpec (dim : ℕ) (a b : List ℚ) : ℚ :=
  ∑ d ∈ Finset.range dim, (a.getD d 0 - b.getD d 0) ^ 2

/-- Accumulating `F + mult · (a - b)` componentwise, as the spec writes it. -/
def addScaledSpec (dim : ℕ) (F : List ℚ) (mult : ℚ) (a b : List ℚ) : List ℚ :=
  (List.range dim).map (fun d => F.getD d 0 + mult * (a.getD d 0 - b.getD d 0))

mutual

/-- The repulsive pass as worded by the claim: at a visited node with centroid
`c`, count `m` and extent `r`, if the node is a leaf or (`s² > 0` and
`r/√s² < θ = 0.8`), add `m·q*` to `Z` and `m·q*²·(y_i - c)` to the force with
`q* = 1/(1+s²)` and do not descend; otherwise additionally add the singleton
term `1/(1+‖y_i - point‖²)` (with the corresponding force term using the raw
`point`) and descend into the children. -/
def repulsiveVisitSpec (dim : ℕ) (sqrtFn : ℚ → ℚ) (pointI : List ℚ) :
    AugNode → ℚ × List ℚ → ℚ × List ℚ
  | .mk pt r chOpt m c, ZF =>
    let s2 := sqDistSpec dim pointI c
    if chOpt.isNone ∨ (s2 > 0 ∧ r / sqrtFn s2 < 8/10) then
      let qs : ℚ := 1 / (1 + s2)
      (ZF.1 + (m : ℚ) * qs, addScaledSpec dim ZF.2 ((m : ℚ) * qs ^ 2) pointI c)
    else
      match chOpt with
      | none => ZF
      | some cs =>
        let qp : ℚ := 1 / (1 + sqDistSpec dim pointI pt)
        repulsiveVisitSpecList dim sqrtFn pointI cs
          (ZF.1 + qp, addScaledSpec dim ZF.2 (qp ^ 2) pointI pt)

def repulsiveVisitSpecList (dim : ℕ) (sqrtFn : ℚ → ℚ) (pointI : List ℚ) :
    List (Option AugNode) → ℚ × List ℚ → ℚ × List ℚ
  | [], ZF => ZF
  | none :: rest, ZF => repulsiveVisitSpecList dim sqrtFn pointI rest ZF
  | some c :: rest, ZF =>
    repulsiveVisitSpecList dim sqrtFn pointI rest
      (repulsiveVisitSpec dim sqrtFn pointI c ZF)

end

/-- The mutable fields of the `TSNE` class (lines 258-274) that the optimizer
touches, with `number[][]` as `List (List ℚ)` and the flat `Float64Array`
solution as `ℕ → ℚ`. -/
structure TState where
  dim : ℕ
  N : ℕ
  epsilon : ℚ
  iter : ℕ
  Y : ℕ → ℚ
  gains : List (List ℚ)
  ystep : List (List ℚ)
  P : ℕ → ℚ
  nearest : List (List Neighbor)

/-- Source lines 369-377: the embedding rows handed to the tree,
`row[d] = Y[i*dim + d]`. -/
def pointsOf (s : TState) : List (List ℚ) :=
  (List.range s.N).map (fun i =>
    (List.range s.dim).map (fun d => s.Y (i * s.dim + d)))

/-- The zero force accumulator, `dim === 3 ? [0,0,0] : [0,0]`. -/
def zeroForce (dim : ℕ) : List ℚ :=
  if dim = 3 then [0, 0, 0] else [0, 0]

/-- Source lines 420-459: the per-point force loop of `costGrad`.  `Z` starts
at `0` and is threaded through every point's tree walk (it is global across
`i`); the result pairs each point with its `(Fpos, FnegZ)`. -/
def costGradForces (sqrtFn : ℚ → ℚ) (s : TState) (root : AugNode) :
    ℚ × List (List ℚ × List ℚ) :=
  let points := pointsOf s
  (List.range s.N).foldl (fun acc i =>
    let pointI := points.getD i []
    let Fpos := (s.nearest.getD i []).foldl (fun F nb =>
      let pointJ := points.getD nb.index []
      let squaredDistItoJ := distByDim s.dim pointI pointJ
      let premult := s.P (i * s.N + nb.index) / (1 + squaredDistItoJ)
      forceByDim s.dim F premult pointI pointJ) (zeroForce s.dim)
    let zf := repulsiveVisit s.dim sqrtFn pointI root (acc.1, zeroForce s.dim)
    (zf.1, acc.2 ++ [(Fpos, zf.2)])) (0, [])

/-- Source `costGrad` (lines 361-472): early-exaggeration factor
`alpha = iter < 100 ? 4 : 1` (the method runs after `step` has already
incremented `iter`), tree annotation, the force loop, and the final combine
`grad[i][d] = 4*alpha*Fpos[d] - (4/Z)*FnegZ[d]`.  The un-annotated tree built
by `new SPTree(points)` is supplied as the `tree` argument, since the tree
construction lives in the missing `sptree.js`. -/
def costGradM (sqrtFn : ℚ → ℚ) (s : TState) (tree : SPNode) : List (List ℚ) :=
  let alpha : ℚ := if s.iter < 100 then 4 else 1
  let root := (annotate s.dim tree).1
  let zf := costGradForces sqrtFn s root
  let B := 4 / zf.1
  zf.2.map (fun FF =>
    (List.range s.dim).map (fun d =>
      4 * alpha * FF.1.getD d 0 - B * FF.2.getD d 0))

/-- Source lines 332-336: the gain update
`newgain = sign(gid) === sign(sid) ? gainid * 0.8 : gainid + 0.2`, clamped
from below at `0.01`. -/
def newGainVal (gid sid gainid : ℚ) : ℚ :=
  let newgain := if sign gid = sign sid then gainid * (8/10) else gainid + 2/10
  if newgain < 1/100 then 1/100 else newgain

/-- Source lines 339-342: the momentum step
`newsid = momval * sid - epsilon * newgain * gid` with
`momval = iter < 250 ? 0.5 : 0.8` (`iter` is the already-incremented
counter). -/
def newStepVal (iter : ℕ) (epsilon gid sid gainid : ℚ) : ℚ :=
  (if iter < 250 then (5/10 : ℚ) else 8/10) * sid -
    epsilon * newGainVal gid sid gainid * gid

/-- Source lines 344-347: the solution after the momentum step
`Y[i*dim+d] += newsid`, before re-centering.  The flat index `x` decodes as
`i = x / dim`, `d = x % dim`. -/
def updatedY (s : TState) (grad : List (List ℚ)) : ℕ → ℚ :=
  fun x => if x < s.N * s.dim then
      s.Y x + newStepVal s.iter s.epsilon
        ((grad.getD (x / s.dim) []).getD (x % s.dim) 0)
        ((s.ystep.getD (x / s.dim) []).getD (x % s.dim) 0)
        ((s.gains.getD (x / s.dim) []).getD (x % s.dim) 0)
    else s.Y x

/-- Source lines 347-348: `ymean[d]` accumulates the already-updated
`Y[i*dim+d]` during the loop; each cell is written exactly once before being
read, so the accumulator equals the column sum of the updated solution. -/
def ymeanOf (s : TState) (grad : List (List ℚ)) (d : ℕ) : ℚ :=
  ∑ i ∈ Finset.range s.N, updatedY s grad (i * s.dim + d)

/-- Source lines 352-357: every cell of the updated solution is shifted by
`-ymean[d] / N`. -/
def recenteredY (s : TState) (grad : List (List ℚ)) : ℕ → ℚ :=
  fun x => if x < s.N * s.dim then
      updatedY s grad x - ymeanOf s grad (x % s.dim) / (s.N : ℚ)
    else updatedY s grad x

/-- Source lines 324-357, the gradient application of `step`, acting on the
state whose `iter` has already been incremented.  The single source loop
writes `gains`, `ystep` and `Y` per coordinate; since the `(i,d)` cells are
pairwise distinct the loop is rendered as independent rebuilds. -/
def applyGrad (s : TState) (grad : List (List ℚ)) : TState :=
  let gE := fun i d => (grad.getD i []).getD d 0
  let sE := fun i d => (s.ystep.getD i []).getD d 0
  let gaE := fun i d => (s.gains.getD i []).getD d 0
  let gains2 := (List.range s.N).map (fun i =>
    (List.range s.dim).map (fun d => newGainVal (gE i d) (sE i d) (gaE i d)))
  let ystep2 := (List.range s.N).map (fun i =>
    (List.range s.dim).map (fun d =>
      newStepVal s.iter s.epsilon (gE i d) (sE i d) (gaE i d)))
  { s with Y := recenteredY s grad, gains := gains2, ystep := ystep2 }

/-- Source `step` (lines 318-358): increment `iter`, evaluate the gradient on
the incremented state, apply it, and re-center. -/
def step (sqrtFn : ℚ → ℚ) (s : TState) (tree : SPNode) : TState :=
  let s1 := { s with iter := s.iter + 1 }
  applyGrad s1 (costGradM sqrtFn s1 tree)

/-- Source `initSolution` (lines 305-312): resample `Y` from `N(0, 1e-4²)`,
reset `gains` to `1`, `ystep` to `0` and `iter` to `0`.  Returns the updated
engine state together with the updated module-global sampler state. -/
def initSolution (sqrtFn logFn : ℚ → ℚ) (rho : ℕ → ℚ) (fuel : ℕ)
    (g : GaussSt) (s : TState) : Option (TState × GaussSt) :=
  (randnMatrix sqrtFn logFn rho fuel s.N s.dim g).map (fun p =>
    ({ s with
        Y := p.1
        gains := arrayofs s.N s.dim 1
        ystep := arrayofs s.N s.dim 0
        iter := 0 }, p.2))

/-- Source `initDataDist` (lines 296-302): store the kNN table, build `P`,
set `N`, and refresh the solution. -/
def initDataDist (expFn logFn sqrtFn : ℚ → ℚ) (rho : ℕ → ℚ) (fuel : ℕ)
    (g : GaussSt) (perplexity : ℚ) (s : TState)
    (nearest : List (List Neighbor)) : Option (TState × GaussSt) :=
  let s1 := { s with
    nearest := nearest
    P := nearest2P expFn logFn nearest perplexity (1/10000)
    N := nearest.length }
  initSolution sqrtFn logFn rho fuel g s1

/-- Repeated stepping; every step rebuilds the tree from the current
embedding via the supplied deterministic `buildTree` (the constructor from the
missing `sptree.js`, modelled from the spec as a function of the points). -/
def runSteps (sqrtFn : ℚ → ℚ) (buildTree : List (List ℚ) → SPNode) :
    ℕ → TState → TState
  | 0, s => s
  | n + 1, s => runSteps sqrtFn buildTree n (step sqrtFn s (buildTree (pointsOf s)))

/-- A full engine run: construct (dimension `dim`, learning rate `epsilon`,
perplexity), feed the kNN table, then perform `steps` optimization steps;
returns the final solution `Y`.  `g` is the state of the module-global
Gaussian cache when the run starts. -/
def runEngine (expFn logFn sqrtFn : ℚ → ℚ) (buildTree : List (List ℚ) → SPNode)
    (rho : ℕ → ℚ) (fuel : ℕ) (g : GaussSt) (dim : ℕ) (perplexity epsilon : ℚ)
    (nearest : List (List Neighbor)) (steps : ℕ) : Option (ℕ → ℚ) :=
  let s0 : TState := { dim := dim, N := 0, epsilon := epsilon, iter := 0
                       Y := fun _ => 0, gains := [], ystep := []
                       P := fun _ => 0, nearest := [] }
  (initDataDist expFn logFn sqrtFn rho fuel g perplexity s0 nearest).map
    (fun p => (runSteps sqrtFn buildTree steps p.1).Y)

/-- Stand-in for `Math.sqrt` in concrete runs; every concrete run below only
evaluates it at `0`, where it agrees with the real square root. -/
def sqrtStub : ℚ → ℚ := fun q => q

/-- Stand-in for `Math.log` in concrete runs; the runs below only rely on
`log 1 = 0`, where it agrees with the real logarithm. -/
def logStub : ℚ → ℚ := fun _ => 0

/-- Stand-in for `Math.exp` in concrete runs; the runs below only evaluate it
at `0`, where it agrees with the real exponential. -/
def expStub : ℚ → ℚ := fun q => 1 + q

section Helpers

theorem getD_map_of_lt {α β : Type} (f : α → β) (l : List α) (k : ℕ)
    (h : k < l.length) (da : α) (db : β) :
    (l.map f).getD k db = f (l.getD k da) := by
  induction l generalizing k with
  | nil => simp at h
  | cons a t ih =>
    cases k with
    | zero => rfl
    | succ k2 => exact ih k2 (by simpa using h)

theorem getD_range_map {β : Type} (f : ℕ → β) (n i : ℕ) (h : i < n) (db : β) :
    ((List.range n).map f).getD i db = f i := by
  rw [getD_map_of_lt f (List.range n) i (by simpa using h) 0 db]
  congr 1
  rw [List.getD_eq_getElem (List.range n) 0 (by simpa using h)]
  simp

end Helpers

/-- C9 counterexample: the claim asserts every bindable distance kernel fails
on unequal-length inputs, but the engine binds `dist2_2D` for `dim = 2`, and
`dist2_2D` performs no length validation: on the unequal-length pair
`[0,0]` / `[0,0,0]` it returns the ordinary value `0` while the generic
`dist2` fails. -/
theorem C9_counterexample :
    boundDistKernel 2 = .ok dist2_2D ∧
    dist2_2D [0, 0] [0, 0, 0] = 0 ∧
    dist2 [0, 0] [0, 0, 0] = .error "Vectors a and b must be of same length" := by
  refine ⟨rfl, by norm_num [dist2_2D], rfl⟩

/-- C9 (amended): only the generic `dist2` validates lengths and fails on a
mismatch; the dimension-specific kernels bound at construction perform no
length check and always return the squared distance of the leading two
(respectively three) components. -/
theorem C9_kernels (a b : List ℚ) (h : a.length ≠ b.length) :
    dist2 a b = .error "Vectors a and b must be of same length" ∧
    dist2_2D a b = (a.getD 0 0 - b.getD 0 0) * (a.getD 0 0 - b.getD 0 0)
      + (a.getD 1 0 - b.getD 1 0) * (a.getD 1 0 - b.getD 1 0) ∧
    dist2_3D a b = (a.getD 0 0 - b.getD 0 0) * (a.getD 0 0 - b.getD 0 0)
      + (a.getD 1 0 - b.getD 1 0) * (a.getD 1 0 - b.getD 1 0)
      + (a.getD 2 0 - b.getD 2 0) * (a.getD 2 0 - b.getD 2 0) := by
  refine ⟨by simp [dist2, h], rfl, rfl⟩

theorem C9_kernels_witness :
    dist2 [(0 : ℚ), 0] [0, 0, 0] = .error "Vectors a and b must be of same length" ∧
    dist2_2D [(0 : ℚ), 0] [0, 0, 0]
      = (([(0 : ℚ), 0].getD 0 0 - [(0 : ℚ), 0, 0].getD 0 0)
          * ([(0 : ℚ), 0].getD 0 0 - [(0 : ℚ), 0, 0].getD 0 0))
      + (([(0 : ℚ), 0].getD 1 0 - [(0 : ℚ), 0, 0].getD 1 0)
          * ([(0 : ℚ), 0].getD 1 0 - [(0 : ℚ), 0, 0].getD 1 0)) ∧
    dist2_3D [(0 : ℚ), 0] [0, 0, 0]
      = (([(0 : ℚ), 0].getD 0 0 - [(0 : ℚ), 0, 0].getD 0 0)
          * ([(0 : ℚ), 0].getD 0 0 - [(0 : ℚ), 0, 0].getD 0 0))
      + (([(0 : ℚ), 0].getD 1 0 - [(0 : ℚ), 0, 0].getD 1 0)
          * ([(0 : ℚ), 0].getD 1 0 - [(0 : ℚ), 0, 0].getD 1 0))
      + (([(0 : ℚ), 0].getD 2 0 - [(0 : ℚ), 0, 0].getD 2 0)
          * ([(0 : ℚ), 0].getD 2 0 - [(0 : ℚ), 0, 0].getD 2 0)) :=
  C9_kernels [(0 : ℚ), 0] [0, 0, 0] (by decide)

theorem rawRow_length (expFn : ℚ → ℚ) (i : ℕ) (neighbors : List Neighbor)
    (beta : ℚ) : (rawRow expFn i neighbors beta).length = neighbors.length := by
  simp [rawRow]

theorem MIN_le_rawProb (expFn : ℚ → ℚ) (i : ℕ) (nb : Neighbor) (beta : ℚ) :
    MIN_POSSIBLE_PROB ≤ rawProb expFn i nb beta :=
  le_max_right _ _

theorem MIN_pos : 0 < MIN_POSSIBLE_PROB := by norm_num [MIN_POSSIBLE_PROB]

theorem rawRow_sum_pos (expFn : ℚ → ℚ) (i : ℕ) (neighbors : List Neighbor)
    (beta : ℚ) (hne : neighbors ≠ []) :
    0 < (rawRow expFn i neighbors beta).sum := by
  apply List.sum_pos
  · intro x hx
    rcases List.mem_map.mp hx with ⟨nb, _, rfl⟩
    exact lt_of_lt_of_le MIN_pos (MIN_le_rawProb expFn i nb beta)
  · simpa [rawRow] using hne

/-- C7 counterexample: the claim states the entry for a self-neighbor is set
to `0` and contributes exactly `0` to the normalized row.  In the source the
zeroing happens *before* the clamp, so at the explicit input (row `0`, first
neighbor `{index 0, dist 0}`, `beta = 1`) the stored raw entry is
`MIN_POSSIBLE_PROB = 1e-9 ≠ 0` and the normalized contribution is
`1/1000000001 ≠ 0`. -/
theorem C7_counterexample :
    rawProb expStub 0 ⟨0, 0⟩ 1 = MIN_POSSIBLE_PROB ∧
    MIN_POSSIBLE_PROB ≠ 0 ∧
    (trialRow expStub logStub 0 [⟨0, 0⟩, ⟨1, 0⟩] 1).1.getD 0 0 = 1 / 1000000001 ∧
    ((1 : ℚ) / 1000000001) ≠ 0 := by
  refine ⟨by norm_num [rawProb, MIN_POSSIBLE_PROB],
    by norm_num [MIN_POSSIBLE_PROB],
    by norm_num [trialRow, rawRow, rawProb, MIN_POSSIBLE_PROB, expStub],
    by norm_num⟩

/-- C7 (amended): in each calibration trial the raw probability is
`exp(-d_k·β)` for a non-self neighbor and `0` for a self neighbor, and the
clamp `max(·, MIN_POSSIBLE_PROB)` is applied *after* the zeroing; therefore
every raw entry (including a self entry) is at least `1e-9`, a self entry is
stored as exactly `1e-9`, and its contribution to the normalized row is
strictly positive rather than exactly `0`. -/
theorem C7_selfNeighbor (expFn logFn : ℚ → ℚ) (i : ℕ) (neighbors : List Neighbor)
    (beta : ℚ) (k : ℕ) (hk : k < neighbors.length)
    (hself : (neighbors.getD k ⟨0, 0⟩).index = i) :
    (∀ k2, k2 < neighbors.length →
      MIN_POSSIBLE_PROB ≤ (rawRow expFn i neighbors beta).getD k2 0) ∧
    (rawRow expFn i neighbors beta).getD k 0 = MIN_POSSIBLE_PROB ∧
    0 < (trialRow expFn logFn i neighbors beta).1.getD k 0 := by
  have hne : neighbors ≠ [] := by
    intro h0
    rw [h0] at hk
    simp at hk
  have hraw : ∀ k2, k2 < neighbors.length →
      (rawRow expFn i neighbors beta).getD k2 0
        = rawProb expFn i (neighbors.getD k2 ⟨0, 0⟩) beta := by
    intro k2 hk2
    exact getD_map_of_lt _ _ _ hk2 _ _
  have hselfval : (rawRow expFn i neighbors beta).getD k 0 = MIN_POSSIBLE_PROB := by
    rw [hraw k hk, rawProb, hself, if_pos rfl]
    exact max_eq_right (le_of_lt MIN_pos)
  refine ⟨fun k2 hk2 => ?_, hselfval, ?_⟩
  · rw [hraw k2 hk2]
    exact MIN_le_rawProb _ _ _ _
  · have hk2 : k < (rawRow expFn i neighbors beta).length := by
      rw [rawRow_length]; exact hk
    have : (trialRow expFn logFn i neighbors beta).1.getD k 0
        = (rawRow expFn i neighbors beta).getD k 0
          / (rawRow expFn i neighbors beta).sum := by
      simpa [trialRow] using
        getD_map_of_lt (fun p => p / (rawRow expFn i neighbors beta).sum)
          (rawRow expFn i neighbors beta) k hk2 0 0
    rw [this, hselfval]
    exact div_pos MIN_pos (rawRow_sum_pos expFn i neighbors beta hne)

theorem C7_selfNeighbor_witness :
    (∀ k2, k2 < ([⟨0, 0⟩, ⟨1, 0⟩] : List Neighbor).length →
      MIN_POSSIBLE_PROB ≤ (rawRow expStub 0 [⟨0, 0⟩, ⟨1, 0⟩] 1).getD k2 0) ∧
    (rawRow expStub 0 [⟨0, 0⟩, ⟨1, 0⟩] 1).getD 0 0 = MIN_POSSIBLE_PROB ∧
    0 < (trialRow expStub logStub 0 [⟨0, 0⟩, ⟨1, 0⟩] 1).1.getD 0 0 :=
  C7_selfNeighbor expStub logStub 0 [⟨0, 0⟩, ⟨1, 0⟩] 1 0 (by norm_num) rfl

/-- The uniform stream of the C10 counterexample: first value `1`, then
`1/2`, so the polar draw is `u = 1, v = 0, r = 1` (accepted with `c = 0`). -/
def rhoC10 : ℕ → ℚ := fun n => if n = 0 then 1 else 1 / 2

/-- C10 counterexample: the sampler cache (`return_v`, `v_val`) is
module-global, not engine-local.  Two engines with identical options, an
identical reproducible stream and identical input draw different initial
embeddings when another engine has left a cached second draw behind: from a
clean cache the first two draws give `Y = [0, 0]`, from a stale cache
`(return_v = true, v_val = 5)` they give `Y = [1/2000, 0]`. -/
theorem C10_counterexample :
    (randnMatrix sqrtStub logStub rhoC10 3 1 2 ⟨false, 0, 0⟩).map
        (fun p => [p.1 0, p.1 1]) = some [0, 0] ∧
    (randnMatrix sqrtStub logStub rhoC10 3 1 2 ⟨true, 5, 0⟩).map
        (fun p => [p.1 0, p.1 1]) = some [1 / 2000, 0] ∧
    some [(0 : ℚ), 0] ≠ some [(1 / 2000 : ℚ), 0] := by
  refine ⟨?_, ?_, by norm_num⟩ <;>
    norm_num [randnMatrix, randnList, randn, gaussRandom, rhoC10, sqrtStub, logStub]

/-- C10 (amended): the cached second draw is module-global rather than
engine-local, so reproducibility additionally requires the global cache to be
in the same state when each engine starts.  Under that condition the full run
is deterministic: two engines with identical options, pointwise-identical
uniform streams, identical kNN input, the same tree builder and the same
number of steps produce identical embeddings. -/
theorem C10_determinism (expFn logFn sqrtFn : ℚ → ℚ)
    (buildTree : List (List ℚ) → SPNode) (rhoA rhoB : ℕ → ℚ)
    (h : ∀ n, rhoA n = rhoB n) (fuel : ℕ) (g : GaussSt) (dim : ℕ)
    (perplexity epsilon : ℚ) (nearest : List (List Neighbor)) (steps : ℕ) :
    runEngine expFn logFn sqrtFn buildTree rhoA fuel g dim perplexity epsilon
        nearest steps
      = runEngine expFn logFn sqrtFn buildTree rhoB fuel g dim perplexity epsilon
        nearest steps := by
  rw [funext h]

def rhoWitA : ℕ → ℚ := fun n => ((n : ℚ) + 1) / 2

def rhoWitB : ℕ → ℚ := fun n => (1 / 2) * ((n : ℚ) + 1)

theorem C10_determinism_witness :
    runEngine expStub logStub sqrtStub (fun _ => SPNode.mk [0, 0] 0 none) rhoWitA
        3 ⟨false, 0, 0⟩ 2 30 10 [[⟨1, 0⟩], [⟨0, 0⟩]] 1
      = runEngine expStub logStub sqrtStub (fun _ => SPNode.mk [0, 0] 0 none) rhoWitB
        3 ⟨false, 0, 0⟩ 2 30 10 [[⟨1, 0⟩], [⟨0, 0⟩]] 1 :=
  C10_determinism expStub logStub sqrtStub (fun _ => SPNode.mk [0, 0] 0 none)
    rhoWitA rhoWitB (fun n => by unfold rhoWitA rhoWitB; ring) 3 ⟨false, 0, 0⟩ 2
    30 10 [[⟨1, 0⟩], [⟨0, 0⟩]] 1

theorem step_iter (sqrtFn : ℚ → ℚ) (s : TState) (tree : SPNode) :
    (step sqrtFn s tree).iter = s.iter + 1 := rfl

theorem costGradM_alpha (sqrtFn : ℚ → ℚ) (s : TState) (tree : SPNode) :
    costGradM sqrtFn s tree
      = (costGradForces sqrtFn s (annotate s.dim tree).1).2.map (fun FF =>
          (List.range s.dim).map (fun d =>
            4 * (if s.iter < 100 then (4 : ℚ) else 1) * FF.1.getD d 0
              - (4 / (costGradForces sqrtFn s (annotate s.dim tree).1).1)
                * FF.2.getD d 0)) := rfl

theorem step_ystep_entry (sqrtFn : ℚ → ℚ) (s : TState) (tree : SPNode) (i d : ℕ)
    (hi : i < s.N) (hd : d < s.dim) :
    ((step sqrtFn s tree).ystep.getD i []).getD d 0
      = newStepVal (s.iter + 1) s.epsilon
          (((costGradM sqrtFn { s with iter := s.iter + 1 } tree).getD i []).getD d 0)
          ((s.ystep.getD i []).getD d 0)
          ((s.gains.getD i []).getD d 0) := by
  show ((((List.range s.N).map (fun i2 => (List.range s.dim).map (fun d2 =>
      newStepVal (s.iter + 1) s.epsilon
        (((costGradM sqrtFn { s with iter := s.iter + 1 } tree).getD i2 []).getD d2 0)
        ((s.ystep.getD i2 []).getD d2 0)
        ((s.gains.getD i2 []).getD d2 0)))).getD i []).getD d 0) = _
  rw [getD_range_map _ _ _ hi, getD_range_map _ _ _ hd]

theorem step_gains_entry (sqrtFn : ℚ → ℚ) (s : TState) (tree : SPNode) (i d : ℕ)
    (hi : i < s.N) (hd : d < s.dim) :
    ((step sqrtFn s tree).gains.getD i []).getD d 0
      = newGainVal
          (((costGradM sqrtFn { s with iter := s.iter + 1 } tree).getD i []).getD d 0)
          ((s.ystep.getD i []).getD d 0)
          ((s.gains.getD i []).getD d 0) := by
  show ((((List.range s.N).map (fun i2 => (List.range s.dim).map (fun d2 =>
      newGainVal
        (((costGradM sqrtFn { s with iter := s.iter + 1 } tree).getD i2 []).getD d2 0)
        ((s.ystep.getD i2 []).getD d2 0)
        ((s.gains.getD i2 []).getD d2 0)))).getD i []).getD d 0) = _
  rw [getD_range_map _ _ _ hi, getD_range_map _ _ _ hd]

/-- The concrete engine state used by the optimizer counterexamples and
witnesses: one 2-D point, `iter = 249`, unit gains and unit previous step. -/
def cexState249 : TState := { dim := 2, N := 1, epsilon := 10, iter := 249
                              Y := fun _ => 0, gains := [[1, 1]], ystep := [[1, 1]]
                              P := fun _ => 0, nearest := [[]] }

/-- The single-leaf tree of the one-point embedding `[[0, 0]]`. -/
def cexLeaf : SPNode := .mk [0, 0] 0 none

theorem cexGrad :
    costGradM sqrtStub { cexState249 with iter := cexState249.iter + 1 } cexLeaf
      = [[0, 0]] := by
  norm_num [costGradM, costGradForces, pointsOf, annotate, repulsiveVisit, distByDim,
    dist2_2D, forceByDim, computeForce_2d, zeroForce, cexState249, cexLeaf,
    List.range_succ]

/-- C3 counterexample: the claim reads the schedules off the *pre-step*
counter value `t`, predicting momentum `0.5` for every `t < 250`.  The source
increments `iter` before reading the schedule, so the step taken from
`iter = 249` uses momentum `0.8`: with zero gradient and previous step `1`
the stored step is `0.8 * 1 = 4/5`, not `0.5`. -/
theorem C3_counterexample :
    ((step sqrtStub cexState249 cexLeaf).ystep.getD 0 []).getD 0 0 = 4/5 ∧
    ((4 : ℚ)/5) ≠ 5/10 := by
  constructor
  · rw [step_ystep_entry sqrtStub cexState249 cexLeaf 0 0
      (by norm_num [cexState249]) (by norm_num [cexState249]), cexGrad]
    norm_num [newStepVal, cexState249]
  · norm_num

/-- C3 (amended): `iter` starts at `0` after `initSolution` and increases by
exactly `1` per `step`; the increment happens *before* the schedules are read,
so the step whose pre-step counter is `t` uses momentum `0.5` iff `t+1 < 250`
(i.e. `t < 249`) and `0.8` otherwise, and the gradient it consumes is combined
with early-exaggeration factor `alpha = 4` iff `t+1 < 100` (i.e. `t < 99`) and
`alpha = 1` otherwise. -/
theorem C3_schedules (sqrtFn logFn : ℚ → ℚ) (rho : ℕ → ℚ) (fuel : ℕ)
    (g : GaussSt) (s : TState) (tree : SPNode) (i d : ℕ)
    (hi : i < s.N) (hd : d < s.dim) :
    (step sqrtFn s tree).iter = s.iter + 1 ∧
    ((initSolution sqrtFn logFn rho fuel g s).map (fun p => p.1.iter)).getD 0 = 0 ∧
    ((step sqrtFn s tree).ystep.getD i []).getD d 0
      = (if s.iter + 1 < 250 then (5/10 : ℚ) else 8/10)
          * ((s.ystep.getD i []).getD d 0)
        - s.epsilon
          * newGainVal
              (((costGradM sqrtFn { s with iter := s.iter + 1 } tree).getD i []).getD d 0)
              ((s.ystep.getD i []).getD d 0)
              ((s.gains.getD i []).getD d 0)
          * (((costGradM sqrtFn { s with iter := s.iter + 1 } tree).getD i []).getD d 0) ∧
    costGradM sqrtFn { s with iter := s.iter + 1 } tree
      = (costGradForces sqrtFn { s with iter := s.iter + 1 }
            (annotate s.dim tree).1).2.map
          (fun FF => (List.range s.dim).map (fun d2 =>
            4 * (if s.iter + 1 < 100 then (4 : ℚ) else 1) * FF.1.getD d2 0
              - (4 / (costGradForces sqrtFn { s with iter := s.iter + 1 }
                  (annotate s.dim tree).1).1) * FF.2.getD d2 0)) := by
  refine ⟨rfl, ?_, ?_, costGradM_alpha sqrtFn _ tree⟩
  · cases h : randnMatrix sqrtFn logFn rho fuel s.N s.dim g with
    | none => simp [initSolution, h]
    | some p => simp [initSolution, h]
  · rw [step_ystep_entry sqrtFn s tree i d hi hd]
    rfl

theorem C3_schedules_witness :
    (step sqrtStub cexState249 cexLeaf).iter = cexState249.iter + 1 ∧
    ((initSolution sqrtStub logStub rhoC10 3 ⟨false, 0, 0⟩ cexState249).map
        (fun p => p.1.iter)).getD 0 = 0 ∧
    ((step sqrtStub cexState249 cexLeaf).ystep.getD 0 []).getD 0 0
      = (if cexState249.iter + 1 < 250 then (5/10 : ℚ) else 8/10)
          * ((cexState249.ystep.getD 0 []).getD 0 0)
        - cexState249.epsilon
          * newGainVal
              (((costGradM sqrtStub { cexState249 with iter := cexState249.iter + 1 }
                  cexLeaf).getD 0 []).getD 0 0)
              ((cexState249.ystep.getD 0 []).getD 0 0)
              ((cexState249.gains.getD 0 []).getD 0 0)
          * (((costGradM sqrtStub { cexState249 with iter := cexState249.iter + 1 }
              cexLeaf).getD 0 []).getD 0 0) ∧
    costGradM sqrtStub { cexState249 with iter := cexState249.iter + 1 } cexLeaf
      = (costGradForces sqrtStub { cexState249 with iter := cexState249.iter + 1 }
            (annotate cexState249.dim cexLeaf).1).2.map
          (fun FF => (List.range cexState249.dim).map (fun d2 =>
            4 * (if cexState249.iter + 1 < 100 then (4 : ℚ) else 1) * FF.1.getD d2 0
              - (4 / (costGradForces sqrtStub
                  { cexState249 with iter := cexState249.iter + 1 }
                  (annotate cexState249.dim cexLeaf).1).1) * FF.2.getD d2 0)) :=
  C3_schedules sqrtStub logStub rhoC10 3 ⟨false, 0, 0⟩ cexState249 cexLeaf 0 0
    (by norm_num [cexState249]) (by norm_num [cexState249])

theorem newGainVal_floor (gid sid gainid : ℚ) : 1/100 ≤ newGainVal gid sid gainid := by
  simp only [newGainVal]
  set t := if sign gid = sign sid then gainid * (8/10) else gainid + 2/10 with ht
  by_cases h : t < 1/100
  · rw [if_pos h]
  · rw [if_neg h]
    exact le_of_not_lt h

theorem step_gains_form (sqrtFn : ℚ → ℚ) (s : TState) (tree : SPNode) :
    (step sqrtFn s tree).gains
      = (List.range s.N).map (fun i2 => (List.range s.dim).map (fun d2 =>
          newGainVal
            (((costGradM sqrtFn { s with iter := s.iter + 1 } tree).getD i2 []).getD d2 0)
            ((s.ystep.getD i2 []).getD d2 0)
            ((s.gains.getD i2 []).getD d2 0))) := rfl

/-- C4: per coordinate, the stored gain is `gain * 0.8` when the gradient sign
equals the previous step sign and `gain + 0.2` otherwise, then floored at
`0.01`; consequently every entry of the gains array is at least `0.01` after
every step. -/
theorem C4_gainUpdate (sqrtFn : ℚ → ℚ) (s : TState) (tree : SPNode) (i d : ℕ)
    (hi : i < s.N) (hd : d < s.dim) :
    ((step sqrtFn s tree).gains.getD i []).getD d 0
      = (let newgain :=
           if sign (((costGradM sqrtFn { s with iter := s.iter + 1 } tree).getD i
                 []).getD d 0)
               = sign ((s.ystep.getD i []).getD d 0)
           then ((s.gains.getD i []).getD d 0) * (8/10)
           else ((s.gains.getD i []).getD d 0) + 2/10
         if newgain < 1/100 then 1/100 else newgain) ∧
    ∀ row ∈ (step sqrtFn s tree).gains, ∀ x ∈ row, 1/100 ≤ x := by
  constructor
  · rw [step_gains_entry sqrtFn s tree i d hi hd]
    rfl
  · intro row hrow x hx
    rw [step_gains_form] at hrow
    rcases List.mem_map.mp hrow with ⟨i2, _, rfl⟩
    rcases List.mem_map.mp hx with ⟨d2, _, rfl⟩
    exact newGainVal_floor _ _ _

theorem C4_gainUpdate_witness :
    ((step sqrtStub cexState249 cexLeaf).gains.getD 0 []).getD 0 0
      = (let newgain :=
           if sign (((costGradM sqrtStub { cexState249 with iter := cexState249.iter + 1 }
                 cexLeaf).getD 0 []).getD 0 0)
               = sign ((cexState249.ystep.getD 0 []).getD 0 0)
           then ((cexState249.gains.getD 0 []).getD 0 0) * (8/10)
           else ((cexState249.gains.getD 0 []).getD 0 0) + 2/10
         if newgain < 1/100 then 1/100 else newgain) ∧
    ∀ row ∈ (step sqrtStub cexState249 cexLeaf).gains, ∀ x ∈ row, 1/100 ≤ x :=
  C4_gainUpdate sqrtStub cexState249 cexLeaf 0 0
    (by norm_num [cexState249]) (by norm_num [cexState249])

theorem recenteredY_col_sum (s : TState) (grad : List (List ℚ)) (d : ℕ)
    (hN : 1 ≤ s.N) (hd : d < s.dim) :
    ∑ i ∈ Finset.range s.N, recenteredY s grad (i * s.dim + d) = 0 := by
  have hkey : ∀ i ∈ Finset.range s.N,
      recenteredY s grad (i * s.dim + d)
        = updatedY s grad (i * s.dim + d) - ymeanOf s grad d / (s.N : ℚ) := by
    intro i hi
    have hiN : i < s.N := Finset.mem_range.mp hi
    have hlt : i * s.dim + d < s.N * s.dim := by
      have h1 : i * s.dim + d < (i + 1) * s.dim := by
        rw [Nat.succ_mul]
        omega
      exact lt_of_lt_of_le h1 (Nat.mul_le_mul_right _ (by omega))
    have hmod : (i * s.dim + d) % s.dim = d := by
      rw [Nat.mul_comm i s.dim, Nat.mul_add_mod]
      exact Nat.mod_eq_of_lt hd
    simp only [recenteredY, hmod]
    rw [if_pos hlt]
  rw [Finset.sum_congr rfl hkey, Finset.sum_sub_distrib]
  have hsum : ∑ i ∈ Finset.range s.N, updatedY s grad (i * s.dim + d)
      = ymeanOf s grad d := rfl
  rw [hsum, Finset.sum_const, Finset.card_range, nsmul_eq_mul,
    mul_div_cancel₀ _ (Nat.cast_ne_zero.mpr (by omega) : (s.N : ℚ) ≠ 0)]
  exact sub_self _

/-- C1: after every `step` on an initialized engine (`N ≥ 1`) each column sum
of the embedding `Y` — hence each column mean — is exactly `0` in the exact
rational model, which is in particular within the claimed `±1e-9` tolerance:
the mean accumulated during the update pass is subtracted from every row. -/
theorem C1_zero_mean (sqrtFn : ℚ → ℚ) (s : TState) (tree : SPNode) (d : ℕ)
    (_hdim : s.dim = 2 ∨ s.dim = 3) (hN : 1 ≤ s.N) (hd : d < s.dim) :
    ∑ i ∈ Finset.range s.N, (step sqrtFn s tree).Y (i * s.dim + d) = 0 := by
  have hY : (step sqrtFn s tree).Y
      = recenteredY { s with iter := s.iter + 1 }
          (costGradM sqrtFn { s with iter := s.iter + 1 } tree) := rfl
  rw [hY]
  exact recenteredY_col_sum { s with iter := s.iter + 1 }
    (costGradM sqrtFn { s with iter := s.iter + 1 } tree) d hN hd

theorem C1_zero_mean_witness :
    ∑ i ∈ Finset.range cexState249.N,
      (step sqrtStub cexState249 cexLeaf).Y (i * cexState249.dim + 0) = 0 :=
  C1_zero_mean sqrtStub cexState249 cexLeaf 0 (Or.inl rfl)
    (by norm_num [cexState249]) (by norm_num [cexState249])

theorem dist2_2D_eq_sqDist (a b : List ℚ) : dist2_2D a b = sqDistSpec 2 a b := by
  simp [dist2_2D, sqDistSpec, Finset.sum_range_succ]
  ring

theorem dist2_3D_eq_sqDist (a b : List ℚ) : dist2_3D a b = sqDistSpec 3 a b := by
  simp [dist2_3D, sqDistSpec, Finset.sum_range_succ]
  ring

theorem distByDim_eq_sqDist (dim : ℕ) (hdim : dim = 2 ∨ dim = 3) (a b : List ℚ) :
    distByDim dim a b = sqDistSpec dim a b := by
  rcases hdim with h | h <;> subst h <;>
    simp [distByDim, dist2_2D_eq_sqDist, dist2_3D_eq_sqDist]

theorem computeForce_2d_eq (F : List ℚ) (mult : ℚ) (a b : List ℚ) :
    computeForce_2d F mult a b = addScaledSpec 2 F mult a b := by
  simp [computeForce_2d, addScaledSpec, List.range_succ]

theorem computeForce_3d_eq (F : List ℚ) (mult : ℚ) (a b : List ℚ) :
    computeForce_3d F mult a b = addScaledSpec 3 F mult a b := by
  simp [computeForce_3d, addScaledSpec, List.range_succ]

theorem forceByDim_eq (dim : ℕ) (hdim : dim = 2 ∨ dim = 3) (F : List ℚ)
    (mult : ℚ) (a b : List ℚ) :
    forceByDim dim F mult a b = addScaledSpec dim F mult a b := by
  rcases hdim with h | h <;> subst h <;>
    simp [forceByDim, computeForce_2d_eq, computeForce_3d_eq]

mutual

theorem repulsiveVisit_eq (dim : ℕ) (hdim : dim = 2 ∨ dim = 3) (sqrtFn : ℚ → ℚ)
    (pointI : List ℚ) : ∀ (node : AugNode) (ZF : ℚ × List ℚ),
    repulsiveVisit dim sqrtFn pointI node ZF
      = repulsiveVisitSpec dim sqrtFn pointI node ZF
  | .mk pt r chOpt m c, ZF => by
    cases chOpt with
    | none =>
      simp only [repulsiveVisit, repulsiveVisitSpec, Option.isNone_none,
        eq_self_iff_true, true_or, if_true,
        distByDim_eq_sqDist dim hdim, forceByDim_eq dim hdim]
      have harg : (m : ℚ) * (1 / (1 + sqDistSpec dim pointI c))
            * (1 / (1 + sqDistSpec dim pointI c))
          = (m : ℚ) * (1 / (1 + sqDistSpec dim pointI c)) ^ 2 := by ring
      rw [harg]
    | some cs =>
      simp only [repulsiveVisit, repulsiveVisitSpec, Option.isNone_some,
        Bool.false_eq_true, false_or, THETA,
        distByDim_eq_sqDist dim hdim, forceByDim_eq dim hdim]
      by_cases h : sqDistSpec dim pointI c > 0
          ∧ r / sqrtFn (sqDistSpec dim pointI c) < 8/10
      · rw [if_pos h, if_pos h]
        have harg : (m : ℚ) * (1 / (1 + sqDistSpec dim pointI c))
              * (1 / (1 + sqDistSpec dim pointI c))
            = (m : ℚ) * (1 / (1 + sqDistSpec dim pointI c)) ^ 2 := by ring
        rw [harg]
      · rw [if_neg h, if_neg h]
        have harg : (1 / (1 + sqDistSpec dim pointI pt))
              * (1 / (1 + sqDistSpec dim pointI pt))
            = (1 / (1 + sqDistSpec dim pointI pt)) ^ 2 := by ring
        rw [harg]
        exact repulsiveVisitList_eq dim hdim sqrtFn pointI cs _

theorem repulsiveVisitList_eq (dim : ℕ) (hdim : dim = 2 ∨ dim = 3)
    (sqrtFn : ℚ → ℚ) (pointI : List ℚ) : ∀ (cs : List (Option AugNode))
    (ZF : ℚ × List ℚ),
    repulsiveVisitList dim sqrtFn pointI cs ZF
      = repulsiveVisitSpecList dim sqrtFn pointI cs ZF
  | [], ZF => rfl
  | none :: rest, ZF => by
    show repulsiveVisitList dim sqrtFn pointI rest ZF
        = repulsiveVisitSpecList dim sqrtFn pointI rest ZF
    exact repulsiveVisitList_eq dim hdim sqrtFn pointI rest ZF
  | some c :: rest, ZF => by
    show repulsiveVisitList dim sqrtFn pointI rest
          (repulsiveVisit dim sqrtFn pointI c ZF)
        = repulsiveVisitSpecList dim sqrtFn pointI rest
          (repulsiveVisitSpec dim sqrtFn pointI c ZF)
    rw [repulsiveVisit_eq dim hdim sqrtFn pointI c ZF]
    exact repulsiveVisitList_eq dim hdim sqrtFn pointI rest _

end

/-- C2: the Barnes-Hut visitor of the repulsive pass behaves exactly as the
claim describes: at every visited node with centroid `c`, count `m` and extent
`r`, if the node is a leaf or (`s² > 0` and `r/√s² < θ = 0.8`) it adds `m·q*`
to `Z` and `m·q*²·(y_i − c)` to the running force with `q* = 1/(1+s²)` and
does not descend; otherwise it additionally adds the singleton term
`1/(1+‖y_i − point‖²)` (with the corresponding force using the raw `point`)
and descends into the non-null children.  Stated as: the source visitor equals
the visitor transcribed from the claim wording, on every tree and state. -/
theorem C2_repulsivePass (dim : ℕ) (sqrtFn : ℚ → ℚ) (pointI : List ℚ)
    (node : AugNode) (ZF : ℚ × List ℚ) (hdim : dim = 2 ∨ dim = 3) :
    repulsiveVisit dim sqrtFn pointI node ZF
      = repulsiveVisitSpec dim sqrtFn pointI node ZF :=
  repulsiveVisit_eq dim hdim sqrtFn pointI node ZF

/-- The two-node tree used by the tree-shaped witnesses: an internal root with
stored point `[0,0]`, first-axis extent `1`, one leaf child at `[1,1]` and one
null slot. -/
def tree2ex : SPNode := .mk [0, 0] 1 (some [some (.mk [1, 1] (1/2) none), none])

theorem C2_repulsivePass_witness :
    repulsiveVisit 2 sqrtStub [3, 4] (annotate 2 tree2ex).1 (0, [0, 0])
      = repulsiveVisitSpec 2 sqrtStub [3, 4] (annotate 2 tree2ex).1 (0, [0, 0]) :=
  C2_repulsivePass 2 sqrtStub [3, 4] (annotate 2 tree2ex).1 (0, [0, 0]) (Or.inl rfl)

/-- Sum of `numCells` over the non-null entries of an annotated child block. -/
def augChildrenCount : List (Option AugNode) → ℕ
  | [] => 0
  | none :: rest => augChildrenCount rest
  | some c :: rest => c.numCells + augChildrenCount rest

mutual

theorem annotate_count (dim : ℕ) : ∀ t : SPNode,
    (annotate dim t).2.1 = countNodes t
  | .mk _ _ none => rfl
  | .mk p _ (some cs) => by
    show (annotateList dim cs 1 p).2.1 = 1 + countNodesList cs
    rw [annotateList_count dim cs 1 p]

theorem annotateList_count (dim : ℕ) : ∀ (cs : List (Option SPNode)) (n : ℕ)
    (y : List ℚ), (annotateList dim cs n y).2.1 = n + countNodesList cs
  | [], n, y => by
    show n = n + countNodesList []
    rw [countNodesList]
    omega
  | none :: rest, n, y => by
    show (annotateList dim rest n y).2.1 = n + countNodesList (none :: rest)
    rw [countNodesList]
    exact annotateList_count dim rest n y
  | some c :: rest, n, y => by
    show (annotateList dim rest (n + (annotate dim c).2.1)
        ((List.range dim).map (fun d => y.getD d 0 + (annotate dim c).2.2.getD d 0))).2.1
      = n + countNodesList (some c :: rest)
    rw [annotateList_count dim rest _ _, annotate_count dim c, countNodesList]
    omega

end

theorem annotate_numCells (dim : ℕ) (t : SPNode) :
    (annotate dim t).1.numCells = (annotate dim t).2.1 := by
  cases t with
  | mk p w ch => cases ch <;> rfl

theorem annotateList_children_count (dim : ℕ) : ∀ (cs : List (Option SPNode))
    (n : ℕ) (y : List ℚ),
    augChildrenCount (annotateList dim cs n y).1 = countNodesList cs
  | [], _, _ => rfl
  | none :: rest, n, y => by
    show augChildrenCount (none :: (annotateList dim rest n y).1)
        = countNodesList (none :: rest)
    rw [augChildrenCount, countNodesList]
    exact annotateList_children_count dim rest n y
  | some c :: rest, n, y => by
    show augChildrenCount (some (annotate dim c).1 :: (annotateList dim rest
          (n + (annotate dim c).2.1)
          ((List.range dim).map (fun d => y.getD d 0 + (annotate dim c).2.2.getD d 0))).1)
        = countNodesList (some c :: rest)
    rw [augChildrenCount, countNodesList, annotate_numCells, annotate_count dim c,
      annotateList_children_count dim rest _ _]

/-- C8 counterexample: the claim states an internal node's `numCells` equals
the sum of its non-null children's `numCells`.  On the two-node tree (internal
root with a single leaf child) the source annotation stores `numCells = 2` at
the root — it counts the root's own stored point — while the children sum is
`1`. -/
theorem C8_counterexample :
    (annotate 2 tree2ex).1.numCells = 2 ∧
    augChildrenCount ((annotate 2 tree2ex).1.children.getD []) = 1 ∧
    (2 : ℕ) ≠ 1 := by
  refine ⟨rfl, rfl, by decide⟩

/-- C8 (amended): after annotation every leaf has `numCells = 1` and
`yCell = point`; every node (in particular every internal node) has
`numCells = 1 + Σ numCells` over its non-null children — the node's own
stored point is counted on top of the children sums; and the root's
`numCells` equals the total number of tree nodes, which is `N` for the
spec-described `sptree.js` trees that store each of the `N` embedded points
in exactly one node. -/
theorem C8_treeCounts (dim : ℕ) (t : SPNode) (N : ℕ) (hN : countNodes t = N) :
    (annotate dim t).1.numCells = N ∧
    (t.children = none →
      (annotate dim t).1.numCells = 1 ∧ (annotate dim t).1.yCell = t.point) ∧
    (∀ cs2, (annotate dim t).1.children = some cs2 →
      (annotate dim t).1.numCells = 1 + augChildrenCount cs2) := by
  refine ⟨?_, ?_, ?_⟩
  · rw [annotate_numCells, annotate_count]
    exact hN
  · intro hc
    cases t with
    | mk p w ch =>
      cases ch with
      | none => exact ⟨rfl, rfl⟩
      | some cs => simp [SPNode.children] at hc
  · intro cs2 hc
    cases t with
    | mk p w ch =>
      cases ch with
      | none => simp [annotate, AugNode.children] at hc
      | some cs =>
        have h2 : (annotate dim (SPNode.mk p w (some cs))).1.children
            = some (annotateList dim cs 1 p).1 := rfl
        rw [h2] at hc
        have hcs : cs2 = (annotateList dim cs 1 p).1 := (Option.some.inj hc).symm
        subst hcs
        show (annotateList dim cs 1 p).2.1
            = 1 + augChildrenCount (annotateList dim cs 1 p).1
        rw [annotateList_count, annotateList_children_count]

theorem C8_treeCounts_witness :
    (annotate 2 tree2ex).1.numCells = 2 ∧
    (tree2ex.children = none →
      (annotate 2 tree2ex).1.numCells = 1 ∧ (annotate 2 tree2ex).1.yCell = tree2ex.point) ∧
    (∀ cs2, (annotate 2 tree2ex).1.children = some cs2 →
      (annotate 2 tree2ex).1.numCells = 1 + augChildrenCount cs2) :=
  C8_treeCounts 2 tree2ex 2 rfl

theorem writes_untouched : ∀ (ws : List (ℕ × ℚ)) (m : ℕ → ℚ) (x : ℕ),
    x ∉ ws.map Prod.fst → writes m ws x = m x := by
  intro ws
  induction ws with
  | nil => intro m x _; rfl
  | cons p rest ih =>
    intro m x hx
    simp only [List.map_cons, List.mem_cons] at hx
    push_neg at hx
    show writes (mupd m p.1 p.2) rest x = m x
    rw [ih _ _ hx.2]
    simp [mupd, hx.1]

theorem writes_found : ∀ (ws : List (ℕ × ℚ)) (m : ℕ → ℚ) (idx : ℕ) (v : ℚ),
    (ws.map Prod.fst).Nodup → (idx, v) ∈ ws → writes m ws idx = v := by
  intro ws
  induction ws with
  | nil => intro m idx v _ h; simp at h
  | cons p rest ih =>
    intro m idx v hnd hmem
    simp only [List.map_cons, List.nodup_cons] at hnd
    rcases List.mem_cons.mp hmem with heq | hmem2
    · subst heq
      show writes (mupd m idx v) rest idx = v
      rw [writes_untouched rest _ idx hnd.1]
      simp [mupd]
    · exact ih _ idx v hnd.2 hmem2

theorem cell_inj (N i j a b : ℕ) (hj : j < N) (hb : b < N)
    (h : i * N + j = a * N + b) : i = a ∧ j = b := by
  have h1 : (i * N + j) % N = j := by
    rw [Nat.mul_comm i N, Nat.mul_add_mod]
    exact Nat.mod_eq_of_lt hj
  have h2 : (a * N + b) % N = b := by
    rw [Nat.mul_comm a N, Nat.mul_add_mod]
    exact Nat.mod_eq_of_lt hb
  rw [h] at h1
  have hjb : j = b := h1.symm.trans h2
  have hia : i * N = a * N := by omega
  exact ⟨Nat.eq_of_mul_eq_mul_right (by omega) hia, hjb⟩

theorem symStep_untouched (N : ℕ) (m : ℕ → ℚ) (p : ℕ × ℕ) (x : ℕ)
    (h1 : x ≠ p.1 * N + p.2) (h2 : x ≠ p.2 * N + p.1) : symStep N m p x = m x := by
  simp [symStep, mupd, h1, h2]

theorem symFold_untouched (N : ℕ) : ∀ (l : List (ℕ × ℕ)) (m : ℕ → ℚ) (x : ℕ),
    (∀ p ∈ l, x ≠ p.1 * N + p.2 ∧ x ≠ p.2 * N + p.1) →
    l.foldl (symStep N) m x = m x := by
  intro l
  induction l with
  | nil => intro m x _; rfl
  | cons p rest ih =>
    intro m x hx
    show rest.foldl (symStep N) (symStep N m p) x = m x
    rw [ih _ _ (fun q hq => hx q (List.mem_cons_of_mem _ hq))]
    exact symStep_untouched N m p x (hx p (List.mem_cons_self _ _)).1
      (hx p (List.mem_cons_self _ _)).2

theorem pair_cells_ne (N i j a b : ℕ) (hij : i < j) (hjN : j < N)
    (hab : a < b) (hbN : b < N) (hne : (a, b) ≠ (i, j)) :
    i * N + j ≠ a * N + b ∧ i * N + j ≠ b * N + a
      ∧ j * N + i ≠ a * N + b ∧ j * N + i ≠ b * N + a := by
  have hiN : i < N := lt_trans hij hjN
  have haN : a < N := lt_trans hab hbN
  refine ⟨fun h => ?_, fun h => ?_, fun h => ?_, fun h => ?_⟩
  · obtain ⟨rfl, rfl⟩ := cell_inj N i j a b hjN hbN h
    exact hne rfl
  · obtain ⟨rfl, rfl⟩ := cell_inj N i j b a hjN haN h
    omega
  · obtain ⟨rfl, rfl⟩ := cell_inj N j i a b hiN hbN h
    omega
  · obtain ⟨rfl, rfl⟩ := cell_inj N j i b a hiN haN h
    exact hne rfl

theorem symFold_pair (N : ℕ) : ∀ (l : List (ℕ × ℕ)) (m : ℕ → ℚ) (i j : ℕ),
    (∀ p ∈ l, p.1 < p.2 ∧ p.2 < N) → l.Nodup → i < j → j < N → (i, j) ∈ l →
    l.foldl (symStep N) m (i * N + j)
        = (m (i * N + j) + m (j * N + i)) / ((N : ℚ) * 2) ∧
    l.foldl (symStep N) m (j * N + i)
        = (m (i * N + j) + m (j * N + i)) / ((N : ℚ) * 2) := by
  intro l
  induction l with
  | nil => intro m i j _ _ _ _ h; simp at h
  | cons p rest ih =>
    intro m i j hwf hnd hij hjN hmem
    have hndc := List.nodup_cons.mp hnd
    rcases List.mem_cons.mp hmem with heq | hmem2
    · subst heq
      have hcells : ∀ q ∈ rest,
          (i * N + j ≠ q.1 * N + q.2 ∧ i * N + j ≠ q.2 * N + q.1)
          ∧ (j * N + i ≠ q.1 * N + q.2 ∧ j * N + i ≠ q.2 * N + q.1) := by
        intro q hq
        have hqwf := hwf q (List.mem_cons_of_mem _ hq)
        have hqne : (q.1, q.2) ≠ (i, j) := by
          intro hqe
          apply hndc.1
          have : q = (i, j) := by
            cases q
            simpa using hqe
          rw [← this]
          exact hq
        have h4 := pair_cells_ne N i j q.1 q.2 hij hjN hqwf.1 hqwf.2 hqne
        exact ⟨⟨h4.1, h4.2.1⟩, ⟨h4.2.2.1, h4.2.2.2⟩⟩
      constructor
      · show rest.foldl (symStep N) (symStep N m (i, j)) (i * N + j) = _
        rw [symFold_untouched N rest _ _ (fun q hq => (hcells q hq).1)]
        simp [symStep, mupd]
      · show rest.foldl (symStep N) (symStep N m (i, j)) (j * N + i) = _
        rw [symFold_untouched N rest _ _ (fun q hq => (hcells q hq).2)]
        simp [symStep, mupd]
    · have hp := hwf p (List.mem_cons_self _ _)
      have hpne : (p.1, p.2) ≠ (i, j) := by
        intro hpe
        apply hndc.1
        have hpij : p = (i, j) := by
          cases p
          simpa using hpe
        rw [hpij]
        exact hmem2
      have h4 := pair_cells_ne N i j p.1 p.2 hij hjN hp.1 hp.2 hpne
      have hr1 : symStep N m p (i * N + j) = m (i * N + j) :=
        symStep_untouched N m p _ h4.1 h4.2.1
      have hr2 : symStep N m p (j * N + i) = m (j * N + i) :=
        symStep_untouched N m p _ h4.2.2.1 h4.2.2.2
      have := ih (symStep N m p) i j
        (fun q hq => hwf q (List.mem_cons_of_mem _ hq)) hndc.2 hij hjN hmem2
      rw [hr1, hr2] at this
      exact this

theorem pairList_mem (N i j : ℕ) :
    (i, j) ∈ pairList N ↔ i < j ∧ j < N := by
  simp only [pairList, List.mem_flatMap, List.mem_map, List.mem_filter,
    List.mem_range, Prod.mk.injEq, decide_eq_true_eq]
  constructor
  · rintro ⟨a, haN, b, ⟨hbN, hab⟩, rfl, rfl⟩
    exact ⟨hab, hbN⟩
  · rintro ⟨hij, hjN⟩
    exact ⟨i, lt_trans hij hjN, j, ⟨hjN, hij⟩, rfl, rfl⟩

theorem nodup_flatMap_of {α β : Type} (l : List α) (f : α → List β)
    (hl : l.Nodup) (hnd : ∀ a ∈ l, (f a).Nodup)
    (hdisj : ∀ a ∈ l, ∀ b ∈ l, a ≠ b → ∀ x, x ∈ f a → x ∉ f b) :
    (l.flatMap f).Nodup := by
  induction l with
  | nil => simp
  | cons a t ih =>
    have hlc := List.nodup_cons.mp hl
    rw [List.flatMap_cons, List.nodup_append]
    refine ⟨hnd a (List.mem_cons_self _ _), ?_, ?_⟩
    · exact ih hlc.2 (fun b hb => hnd b (List.mem_cons_of_mem _ hb))
        (fun b hb c hc hbc => hdisj b (List.mem_cons_of_mem _ hb)
          c (List.mem_cons_of_mem _ hc) hbc)
    · intro x hxa hxt
      rcases List.mem_flatMap.mp hxt with ⟨b, hbt, hxb⟩
      have hab : a ≠ b := fun h => hlc.1 (h ▸ hbt)
      exact hdisj a (List.mem_cons_self _ _) b (List.mem_cons_of_mem _ hbt)
        hab x hxa hxb

theorem pairList_nodup (N : ℕ) : (pairList N).Nodup := by
  apply nodup_flatMap_of
  · exact List.nodup_range _
  · intro a _
    exact List.Nodup.map (fun x y h => by simpa using h)
      (List.Nodup.filter _ (List.nodup_range _))
  · intro a _ b _ hab x hxa hxb
    rcases List.mem_map.mp hxa with ⟨j1, _, rfl⟩
    rcases List.mem_map.mp hxb with ⟨j2, _, h2⟩
    exact hab (congrArg Prod.fst h2).symm

theorem symmetrize_offdiag (N : ℕ) (m : ℕ → ℚ) (i j : ℕ) (hij : i < j)
    (hjN : j < N) :
    symmetrize N m (i * N + j) = (m (i * N + j) + m (j * N + i)) / ((N : ℚ) * 2) ∧
    symmetrize N m (j * N + i) = (m (i * N + j) + m (j * N + i)) / ((N : ℚ) * 2) :=
  symFold_pair N (pairList N) m i j
    (fun p hp => by
      have := (pairList_mem N p.1 p.2).mp (by simpa using hp)
      exact this)
    (pairList_nodup N) hij hjN ((pairList_mem N i j).mpr ⟨hij, hjN⟩)

theorem symmetrize_diag (N : ℕ) (m : ℕ → ℚ) (i : ℕ) (hiN : i < N) :
    symmetrize N m (i * N + i) = m (i * N + i) := by
  apply symFold_untouched
  intro p hp
  have hpm := (pairList_mem N p.1 p.2).mp (by simpa using hp)
  constructor
  · intro h
    obtain ⟨h1, h2⟩ := cell_inj N i i p.1 p.2 hiN hpm.2 h
    have := hpm.1
    omega
  · intro h
    obtain ⟨h1, h2⟩ := cell_inj N i i p.2 p.1 hiN (lt_trans hpm.1 hpm.2) h
    have := hpm.1
    omega

/-- C5: after `nearest2P` the probability matrix is symmetric —
`P[i,j] = P[j,i]` for all `i, j < N` — and every off-diagonal pair `i < j`
holds `(P_raw[i,j] + P_raw[j,i]) / (2N)` where `P_raw` is the
pre-symmetrization matrix of per-row calibrated probabilities. -/
theorem C5_symmetry (expFn logFn : ℚ → ℚ) (nearest : List (List Neighbor))
    (perplexity tol : ℚ) (i j : ℕ)
    (hi : i < nearest.length) (hj : j < nearest.length) :
    nearest2P expFn logFn nearest perplexity tol (i * nearest.length + j)
      = nearest2P expFn logFn nearest perplexity tol (j * nearest.length + i) ∧
    (i < j →
      nearest2P expFn logFn nearest perplexity tol (i * nearest.length + j)
        = (rawP expFn logFn nearest perplexity tol (i * nearest.length + j)
            + rawP expFn logFn nearest perplexity tol (j * nearest.length + i))
          / ((nearest.length : ℚ) * 2)) := by
  have hP : nearest2P expFn logFn nearest perplexity tol
      = symmetrize nearest.length (rawP expFn logFn nearest perplexity tol) := rfl
  rw [hP]
  rcases lt_trichotomy i j with hij | rfl | hji
  · have h := symmetrize_offdiag nearest.length
      (rawP expFn logFn nearest perplexity tol) i j hij hj
    exact ⟨h.1.trans h.2.symm, fun _ => h.1⟩
  · exact ⟨rfl, fun h => absurd h (lt_irrefl i)⟩
  · have h := symmetrize_offdiag nearest.length
      (rawP expFn logFn nearest perplexity tol) j i hji hi
    refine ⟨h.2.trans h.1.symm, fun hij => absurd hij (not_lt_of_gt hji)⟩

/-- The valid two-point kNN table used by calibrator witnesses: each point
lists the other at distance `0`. -/
def knnOK : List (List Neighbor) := [[⟨1, 0⟩], [⟨0, 0⟩]]

theorem C5_symmetry_witness :
    nearest2P expStub logStub knnOK 30 (1/10000) (0 * knnOK.length + 1)
      = nearest2P expStub logStub knnOK 30 (1/10000) (1 * knnOK.length + 0) ∧
    (0 < 1 →
      nearest2P expStub logStub knnOK 30 (1/10000) (0 * knnOK.length + 1)
        = (rawP expStub logStub knnOK 30 (1/10000) (0 * knnOK.length + 1)
            + rawP expStub logStub knnOK 30 (1/10000) (1 * knnOK.length + 0))
          / ((knnOK.length : ℚ) * 2)) :=
  C5_symmetry expStub logStub knnOK 30 (1/10000) 0 1
    (by norm_num [knnOK]) (by norm_num [knnOK])

theorem trialRow_length (expFn logFn : ℚ → ℚ) (i : ℕ) (neighbors : List Neighbor)
    (beta : ℚ) : (trialRow expFn logFn i neighbors beta).1.length = neighbors.length := by
  simp [trialRow, rawRow]

theorem trialRow_sum (expFn logFn : ℚ → ℚ) (i : ℕ) (neighbors : List Neighbor)
    (beta : ℚ) (hne : neighbors ≠ []) :
    (trialRow expFn logFn i neighbors beta).1.sum = 1 := by
  have hpos := rawRow_sum_pos expFn i neighbors beta hne
  simp only [trialRow]
  have hmap : ((rawRow expFn i neighbors beta).map
      (fun p => p / (rawRow expFn i neighbors beta).sum)).sum
      = (rawRow expFn i neighbors beta).sum / (rawRow expFn i neighbors beta).sum := by
    simp only [div_eq_mul_inv]
    rw [List.sum_map_mul_right]
    simp
  rw [hmap, div_self (ne_of_gt hpos)]

theorem betaSearch_is_trial (expFn logFn : ℚ → ℚ) (Ht tol : ℚ) (i : ℕ)
    (neighbors : List Neighbor) : ∀ (fuel : ℕ) (beta : ℚ) (bmin bmax : Option ℚ),
    ∃ b2, betaSearch expFn logFn Ht tol i neighbors fuel beta bmin bmax
      = (trialRow expFn logFn i neighbors b2).1 := by
  intro fuel
  induction fuel with
  | zero => intro beta _ _; exact ⟨beta, rfl⟩
  | succ f ih =>
    intro beta bmin bmax
    simp only [betaSearch]
    by_cases h1 : f = 0 ∨ |(trialRow expFn logFn i neighbors beta).2 - Ht| < tol
    · rw [if_pos h1]
      exact ⟨beta, rfl⟩
    · rw [if_neg h1]
      by_cases h2 : (trialRow expFn logFn i neighbors beta).2 > Ht
      · rw [if_pos h2]
        exact ih _ _ _
      · rw [if_neg h2]
        exact ih _ _ _

theorem calibRow_sum (expFn logFn : ℚ → ℚ) (perplexity tol : ℚ) (i : ℕ)
    (neighbors : List Neighbor) (hne : neighbors ≠ []) :
    (calibRow expFn logFn perplexity tol i neighbors).sum = 1 := by
  obtain ⟨b2, hb⟩ := betaSearch_is_trial expFn logFn (logFn perplexity) tol i
    neighbors 50 1 none none
  rw [calibRow, hb, trialRow_sum expFn logFn i neighbors b2 hne]

theorem calibRow_length (expFn logFn : ℚ → ℚ) (perplexity tol : ℚ) (i : ℕ)
    (neighbors : List Neighbor) :
    (calibRow expFn logFn perplexity tol i neighbors).length = neighbors.length := by
  obtain ⟨b2, hb⟩ := betaSearch_is_trial expFn logFn (logFn perplexity) tol i
    neighbors 50 1 none none
  rw [calibRow, hb, trialRow_length]

theorem writes_sum_gen (M : ℕ) : ∀ (ws : List (ℕ × ℚ)) (m : ℕ → ℚ),
    (ws.map Prod.fst).Nodup → (∀ p ∈ ws, p.1 < M) → (∀ p ∈ ws, m p.1 = 0) →
    ∑ x ∈ Finset.range M, writes m ws x
      = (∑ x ∈ Finset.range M, m x) + (ws.map Prod.snd).sum := by
  intro ws
  induction ws with
  | nil =>
    intro m _ _ _
    simp [writes]
  | cons p rest ih =>
    intro m hnd hb hz
    have hndc : p.1 ∉ rest.map Prod.fst ∧ (rest.map Prod.fst).Nodup := by
      rw [List.map_cons] at hnd
      exact List.nodup_cons.mp hnd
    have hp1M : p.1 < M := hb p (List.mem_cons_self _ _)
    show ∑ x ∈ Finset.range M, writes (mupd m p.1 p.2) rest x = _
    rw [ih (mupd m p.1 p.2) hndc.2 (fun q hq => hb q (List.mem_cons_of_mem _ hq))
      (fun q hq => by
        have hqne : q.1 ≠ p.1 := by
          intro h
          exact hndc.1 (h ▸ List.mem_map_of_mem Prod.fst hq)
        simp only [mupd, if_neg hqne]
        exact hz q (List.mem_cons_of_mem _ hq))]
    have hmem : p.1 ∈ Finset.range M := Finset.mem_range.mpr hp1M
    have h1 : ∑ x ∈ (Finset.range M).erase p.1, mupd m p.1 p.2 x
        = ∑ x ∈ (Finset.range M).erase p.1, m x :=
      Finset.sum_congr rfl (fun x hx => by
        simp [mupd, Finset.ne_of_mem_erase hx])
    have h2 : ∑ x ∈ Finset.range M, mupd m p.1 p.2 x
        = (∑ x ∈ Finset.range M, m x) + p.2 := by
      rw [← Finset.sum_erase_add _ _ hmem, h1,
        ← Finset.sum_erase_add (Finset.range M) m hmem]
      have hv : mupd m p.1 p.2 p.1 = p.2 := by simp [mupd]
      have hmz : m p.1 = 0 := hz p (List.mem_cons_self _ _)
      rw [hv, hmz]
      ring
    rw [h2]
    simp only [List.map_cons, List.sum_cons]
    ring

theorem sum_flatMap_q (l : List ℕ) (f : ℕ → List ℚ) :
    (l.flatMap f).sum = (l.map (fun a => (f a).sum)).sum := by
  induction l with
  | nil => rfl
  | cons a t ih => simp [List.flatMap_cons, ih]

theorem rowWrites_fst (N i : ℕ) (nbrs : List Neighbor) (pRow : List ℚ)
    (hlen : pRow.length = nbrs.length) :
    (rowWrites N i nbrs pRow).map Prod.fst
      = nbrs.map (fun nb => i * N + nb.index) := by
  simp only [rowWrites, List.map_map]
  have h1 : (Prod.fst ∘ fun jv : ℕ × ℚ => (i * N + jv.1, jv.2))
      = (fun j => i * N + j) ∘ Prod.fst := rfl
  rw [h1, ← List.map_map, List.map_fst_zip _ _ (by simp [hlen]), List.map_map]
  rfl

theorem rowWrites_snd (N i : ℕ) (nbrs : List Neighbor) (pRow : List ℚ)
    (hlen : pRow.length = nbrs.length) :
    (rowWrites N i nbrs pRow).map Prod.snd = pRow := by
  simp only [rowWrites, List.map_map]
  have h1 : (Prod.snd ∘ fun jv : ℕ × ℚ => (i * N + jv.1, jv.2)) = Prod.snd := rfl
  rw [h1, List.map_snd_zip _ _ (by simp [hlen])]

theorem sum_range_mul_split (f : ℕ → ℚ) (n M : ℕ) :
    ∑ x ∈ Finset.range (n * M), f x
      = ∑ i ∈ Finset.range n, ∑ j ∈ Finset.range M, f (i * M + j) := by
  induction n with
  | zero => simp
  | succ n2 ih =>
    rw [Finset.sum_range_succ, ← ih]
    have hsplit : ∑ x ∈ Finset.range ((n2 + 1) * M), f x
        = (∑ x ∈ Finset.Ico 0 (n2 * M), f x)
          + ∑ x ∈ Finset.Ico (n2 * M) ((n2 + 1) * M), f x := by
      rw [Finset.sum_Ico_consecutive f (Nat.zero_le _)
        (Nat.mul_le_mul_right M (Nat.le_succ n2))]
      rw [← Finset.range_eq_Ico]
    rw [hsplit, ← Finset.range_eq_Ico]
    congr 1
    rw [Finset.sum_Ico_eq_sum_range f (n2 * M) ((n2 + 1) * M)]
    have hM : (n2 + 1) * M - n2 * M = M := by
      rw [Nat.succ_mul]
      omega
    rw [hM]

/-- C6 (amended): over every kNN input with `N ≥ 1` rows of uniform length
`K ≥ 1` whose neighbor indices lie in `[0, N)`, are distinct within each row,
and never name the row itself, the matrix returned by the calibrator sums to
exactly `1` over the full `N×N` support — for every choice of the `exp`/`log`
kernels.  (Self-neighbors or duplicate indices break the claim; see the
counterexample.) -/
theorem C6_mass (expFn logFn : ℚ → ℚ) (nearest : List (List Neighbor))
    (perplexity tol : ℚ) (K : ℕ) (hN : 1 ≤ nearest.length) (hK1 : 1 ≤ K)
    (hK : ∀ i2, i2 < nearest.length → (nearest.getD i2 []).length = K)
    (hvalid : ∀ i2, i2 < nearest.length → ∀ nb ∈ nearest.getD i2 [],
      nb.index < nearest.length ∧ nb.index ≠ i2)
    (hnodup : ∀ i2, i2 < nearest.length →
      ((nearest.getD i2 []).map (fun nb => nb.index)).Nodup) :
    ∑ x ∈ Finset.range (nearest.length * nearest.length),
      nearest2P expFn logFn nearest perplexity tol x = 1 := by
  have hNQ : ((nearest.length : ℚ)) ≠ 0 := Nat.cast_ne_zero.mpr (by omega)
  -- abbreviations
  have hrow_ne : ∀ i2, i2 < nearest.length → nearest.getD i2 [] ≠ [] := by
    intro i2 h hemp
    have := hK i2 h
    rw [hemp] at this
    simp at this
    omega
  have hlen : ∀ i2, (calibRow expFn logFn perplexity tol i2
      (nearest.getD i2 [])).length = (nearest.getD i2 []).length :=
    fun i2 => calibRow_length expFn logFn perplexity tol i2 _
  have hfst : ∀ i2, (rowWrites nearest.length i2 (nearest.getD i2 [])
        (calibRow expFn logFn perplexity tol i2 (nearest.getD i2 []))).map Prod.fst
      = (nearest.getD i2 []).map (fun nb => i2 * nearest.length + nb.index) :=
    fun i2 => rowWrites_fst _ i2 _ _ (hlen i2)
  have hcellb : ∀ a j, a < nearest.length → j < nearest.length →
      a * nearest.length + j < nearest.length * nearest.length := by
    intro a j ha hj
    calc a * nearest.length + j < (a + 1) * nearest.length := by
          rw [Nat.succ_mul]; omega
      _ ≤ nearest.length * nearest.length :=
          Nat.mul_le_mul_right _ (by omega)
  -- membership in a row's position list
  have hposmem : ∀ x a, a < nearest.length →
      x ∈ (rowWrites nearest.length a (nearest.getD a [])
        (calibRow expFn logFn perplexity tol a (nearest.getD a []))).map Prod.fst →
      ∃ nb ∈ nearest.getD a [], x = a * nearest.length + nb.index := by
    intro x a haN hx
    rw [hfst a] at hx
    rcases List.mem_map.mp hx with ⟨nb, hnb, rfl⟩
    exact ⟨nb, hnb, rfl⟩
  -- the full write list of rawP
  have hfstAll : ((((List.range nearest.length).flatMap (fun i2 =>
        rowWrites nearest.length i2 (nearest.getD i2 [])
          (calibRow expFn logFn perplexity tol i2 (nearest.getD i2 []))))).map
        Prod.fst).Nodup := by
    rw [List.map_flatMap]
    apply nodup_flatMap_of _ _ (List.nodup_range _)
    · intro a haR
      have haN : a < nearest.length := List.mem_range.mp haR
      rw [hfst a]
      have hrw : (nearest.getD a []).map (fun nb => a * nearest.length + nb.index)
          = ((nearest.getD a []).map (fun nb => nb.index)).map
            (fun j => a * nearest.length + j) := by
        rw [List.map_map]
        rfl
      rw [hrw]
      exact List.Nodup.map (fun x y h => by omega) (hnodup a haN)
    · intro a haR b hbR hab x hxa hxb
      have haN : a < nearest.length := List.mem_range.mp haR
      have hbN : b < nearest.length := List.mem_range.mp hbR
      rcases hposmem x a haN hxa with ⟨nb1, hnb1, rfl⟩
      rcases hposmem _ b hbN hxb with ⟨nb2, hnb2, hx2⟩
      have h1 := (hvalid a haN nb1 hnb1).1
      have h2 := (hvalid b hbN nb2 hnb2).1
      exact hab (cell_inj nearest.length a nb1.index b nb2.index h1 h2 hx2).1
  have hboundAll : ∀ p ∈ ((List.range nearest.length).flatMap (fun i2 =>
        rowWrites nearest.length i2 (nearest.getD i2 [])
          (calibRow expFn logFn perplexity tol i2 (nearest.getD i2 [])))),
      p.1 < nearest.length * nearest.length := by
    intro p hp
    rcases List.mem_flatMap.mp hp with ⟨a, haR, hpa⟩
    have haN : a < nearest.length := List.mem_range.mp haR
    rcases hposmem p.1 a haN (List.mem_map_of_mem Prod.fst hpa) with ⟨nb, hnb, hx⟩
    rw [hx]
    exact hcellb a nb.index haN (hvalid a haN nb hnb).1
  -- total mass of the raw matrix
  have hraw_eq : rawP expFn logFn nearest perplexity tol
      = writes (fun _ => 0) ((List.range nearest.length).flatMap (fun i2 =>
          rowWrites nearest.length i2 (nearest.getD i2 [])
            (calibRow expFn logFn perplexity tol i2 (nearest.getD i2 [])))) := rfl
  have htotal_raw : ∑ x ∈ Finset.range (nearest.length * nearest.length),
      rawP expFn logFn nearest perplexity tol x = (nearest.length : ℚ) := by
    rw [hraw_eq, writes_sum_gen _ _ _ hfstAll hboundAll (fun p _ => rfl)]
    rw [List.map_flatMap]
    have hsnd : ∀ i2 ∈ List.range nearest.length,
        ((rowWrites nearest.length i2 (nearest.getD i2 [])
          (calibRow expFn logFn perplexity tol i2 (nearest.getD i2 []))).map
            Prod.snd).sum = 1 := by
      intro i2 hi2
      have hi2N : i2 < nearest.length := List.mem_range.mp hi2
      rw [rowWrites_snd _ i2 _ _ (hlen i2)]
      exact calibRow_sum expFn logFn perplexity tol i2 _ (hrow_ne i2 hi2N)
    rw [sum_flatMap_q, List.map_congr_left (fun a ha => hsnd a ha)]
    rw [List.map_const', List.sum_replicate, List.length_range]
    simp
  -- the diagonal of the raw matrix is zero
  have hdiag : ∀ i2, i2 < nearest.length →
      rawP expFn logFn nearest perplexity tol (i2 * nearest.length + i2) = 0 := by
    intro i2 hi2
    rw [hraw_eq]
    apply writes_untouched
    intro hmem
    rw [List.map_flatMap] at hmem
    rcases List.mem_flatMap.mp hmem with ⟨a, haR, hpa⟩
    have haN : a < nearest.length := List.mem_range.mp haR
    rcases hposmem _ a haN hpa with ⟨nb, hnb, hx⟩
    have h1 := hvalid a haN nb hnb
    obtain ⟨hh1, hh2⟩ := cell_inj nearest.length i2 i2 a nb.index hi2 h1.1 hx
    exact h1.2 (by omega)
  -- pointwise value of the symmetrized matrix
  have hsym : ∀ i2, i2 < nearest.length → ∀ j2, j2 < nearest.length →
      nearest2P expFn logFn nearest perplexity tol (i2 * nearest.length + j2)
        = if i2 = j2 then 0
          else (rawP expFn logFn nearest perplexity tol (i2 * nearest.length + j2)
            + rawP expFn logFn nearest perplexity tol (j2 * nearest.length + i2))
            / ((nearest.length : ℚ) * 2) := by
    intro i2 hi2 j2 hj2
    have hP : nearest2P expFn logFn nearest perplexity tol
        = symmetrize nearest.length (rawP expFn logFn nearest perplexity tol) := rfl
    rcases lt_trichotomy i2 j2 with hlt | rfl | hgt
    · rw [if_neg (by omega), hP]
      exact (symmetrize_offdiag nearest.length _ i2 j2 hlt hj2).1
    · rw [if_pos rfl, hP, symmetrize_diag nearest.length _ i2 hi2]
      exact hdiag i2 hi2
    · rw [if_neg (by omega), hP]
      have h := symmetrize_offdiag nearest.length
        (rawP expFn logFn nearest perplexity tol) j2 i2 hgt hi2
      rw [h.2]
      ring
  -- assemble
  rw [sum_range_mul_split]
  have hcongr : ∀ i2 ∈ Finset.range nearest.length,
      ∑ j2 ∈ Finset.range nearest.length,
        nearest2P expFn logFn nearest perplexity tol (i2 * nearest.length + j2)
      = ∑ j2 ∈ Finset.range nearest.length,
          ((if i2 = j2 then 0
            else rawP expFn logFn nearest perplexity tol (i2 * nearest.length + j2))
           + (if i2 = j2 then 0
            else rawP expFn logFn nearest perplexity tol (j2 * nearest.length + i2)))
          / ((nearest.length : ℚ) * 2) := by
    intro i2 hi2
    apply Finset.sum_congr rfl
    intro j2 hj2
    rw [hsym i2 (Finset.mem_range.mp hi2) j2 (Finset.mem_range.mp hj2)]
    by_cases h : i2 = j2
    · simp [h]
    · simp [h]
  rw [Finset.sum_congr rfl hcongr]
  have hT1 : ∑ i2 ∈ Finset.range nearest.length, ∑ j2 ∈ Finset.range nearest.length,
      (if i2 = j2 then 0
       else rawP expFn logFn nearest perplexity tol (i2 * nearest.length + j2))
      = (nearest.length : ℚ) := by
    have hrowsum : ∀ i2 ∈ Finset.range nearest.length,
        ∑ j2 ∈ Finset.range nearest.length,
          (if i2 = j2 then 0
           else rawP expFn logFn nearest perplexity tol (i2 * nearest.length + j2))
        = (∑ j2 ∈ Finset.range nearest.length,
            rawP expFn logFn nearest perplexity tol (i2 * nearest.length + j2))
          - rawP expFn logFn nearest perplexity tol (i2 * nearest.length + i2) := by
      intro i2 hi2
      have hsplit : ∀ j2 ∈ Finset.range nearest.length,
          (if i2 = j2 then 0
           else rawP expFn logFn nearest perplexity tol (i2 * nearest.length + j2))
          = rawP expFn logFn nearest perplexity tol (i2 * nearest.length + j2)
            - (if i2 = j2
               then rawP expFn logFn nearest perplexity tol (i2 * nearest.length + j2)
               else 0) := by
        intro j2 _
        by_cases h : i2 = j2 <;> simp [h]
      rw [Finset.sum_congr rfl hsplit, Finset.sum_sub_distrib]
      congr 1
      rw [Finset.sum_ite_eq (Finset.range nearest.length) i2
        (fun j2 => rawP expFn logFn nearest perplexity tol
          (i2 * nearest.length + j2))]
      simp [Finset.mem_range.mp hi2]
    rw [Finset.sum_congr rfl hrowsum, Finset.sum_sub_distrib]
    have hdiagsum : ∑ i2 ∈ Finset.range nearest.length,
        rawP expFn logFn nearest perplexity tol (i2 * nearest.length + i2) = 0 := by
      apply Finset.sum_eq_zero
      intro i2 hi2
      exact hdiag i2 (Finset.mem_range.mp hi2)
    rw [hdiagsum, ← sum_range_mul_split, htotal_raw]
    ring
  have hT2 : ∑ i2 ∈ Finset.range nearest.length, ∑ j2 ∈ Finset.range nearest.length,
      (if i2 = j2 then 0
       else rawP expFn logFn nearest perplexity tol (j2 * nearest.length + i2))
      = (nearest.length : ℚ) := by
    rw [Finset.sum_comm]
    have hflip : ∀ a ∈ Finset.range nearest.length, ∀ b ∈ Finset.range nearest.length,
        (if b = a then 0
         else rawP expFn logFn nearest perplexity tol (a * nearest.length + b))
        = (if a = b then 0
           else rawP expFn logFn nearest perplexity tol (a * nearest.length + b)) := by
      intro a _ b _
      by_cases h : a = b
      · simp [h]
      · rw [if_neg (fun hba => h hba.symm), if_neg h]
    calc ∑ a ∈ Finset.range nearest.length, ∑ b ∈ Finset.range nearest.length,
          (if b = a then 0
           else rawP expFn logFn nearest perplexity tol (a * nearest.length + b))
        = ∑ a ∈ Finset.range nearest.length, ∑ b ∈ Finset.range nearest.length,
          (if a = b then 0
           else rawP expFn logFn nearest perplexity tol (a * nearest.length + b)) := by
          apply Finset.sum_congr rfl
          intro a ha
          exact Finset.sum_congr rfl (fun b hb => hflip a ha b hb)
      _ = (nearest.length : ℚ) := hT1
  have hfinal : ∑ i2 ∈ Finset.range nearest.length, ∑ j2 ∈ Finset.range nearest.length,
      ((if i2 = j2 then 0
        else rawP expFn logFn nearest perplexity tol (i2 * nearest.length + j2))
       + (if i2 = j2 then 0
        else rawP expFn logFn nearest perplexity tol (j2 * nearest.length + i2)))
      / ((nearest.length : ℚ) * 2)
      = (∑ i2 ∈ Finset.range nearest.length, ∑ j2 ∈ Finset.range nearest.length,
          ((if i2 = j2 then 0
            else rawP expFn logFn nearest perplexity tol (i2 * nearest.length + j2))
           + (if i2 = j2 then 0
            else rawP expFn logFn nearest perplexity tol (j2 * nearest.length + i2))))
        / ((nearest.length : ℚ) * 2) := by
    rw [Finset.sum_div]
    apply Finset.sum_congr rfl
    intro i2 _
    rw [Finset.sum_div]
  rw [hfinal]
  have hsum2 : (∑ i2 ∈ Finset.range nearest.length, ∑ j2 ∈ Finset.range nearest.length,
      ((if i2 = j2 then 0
        else rawP expFn logFn nearest perplexity tol (i2 * nearest.length + j2))
       + (if i2 = j2 then 0
        else rawP expFn logFn nearest perplexity tol (j2 * nearest.length + i2))))
      = (∑ i2 ∈ Finset.range nearest.length, ∑ j2 ∈ Finset.range nearest.length,
          (if i2 = j2 then 0
           else rawP expFn logFn nearest perplexity tol (i2 * nearest.length + j2)))
        + (∑ i2 ∈ Finset.range nearest.length, ∑ j2 ∈ Finset.range nearest.length,
          (if i2 = j2 then 0
           else rawP expFn logFn nearest perplexity tol (j2 * nearest.length + i2))) := by
    rw [← Finset.sum_add_distrib]
    apply Finset.sum_congr rfl
    intro i2 _
    rw [← Finset.sum_add_distrib]
  rw [hsum2, hT1, hT2]
  field_simp
  ring

theorem betaSearch_break (expFn logFn : ℚ → ℚ) (Ht tol : ℚ) (i : ℕ)
    (neighbors : List Neighbor) (fuel : ℕ) (beta : ℚ) (bmin bmax : Option ℚ)
    (h : |(trialRow expFn logFn i neighbors beta).2 - Ht| < tol) :
    betaSearch expFn logFn Ht tol i neighbors (fuel + 1) beta bmin bmax
      = (trialRow expFn logFn i neighbors beta).1 := by
  simp only [betaSearch]
  rw [if_pos (Or.inr h)]

/-- The kNN table of the C6 counterexample: two points, `K = 1`, all indices
in range — but row `0` lists itself. -/
def knnSelf : List (List Neighbor) := [[⟨0, 0⟩], [⟨0, 0⟩]]

theorem calibRowSelf0 : calibRow expStub logStub 30 (1/10000) 0 [⟨0, 0⟩] = [1] := by
  rw [calibRow, show (50 : ℕ) = 49 + 1 from rfl, betaSearch_break]
  · norm_num [trialRow, rawRow, rawProb, MIN_POSSIBLE_PROB, expStub, logStub]
  · norm_num [trialRow, rawRow, rawProb, MIN_POSSIBLE_PROB, expStub, logStub]

theorem calibRowSelf1 : calibRow expStub logStub 30 (1/10000) 1 [⟨0, 0⟩] = [1] := by
  rw [calibRow, show (50 : ℕ) = 49 + 1 from rfl, betaSearch_break]
  · norm_num [trialRow, rawRow, rawProb, MIN_POSSIBLE_PROB, expStub, logStub]
  · norm_num [trialRow, rawRow, rawProb, MIN_POSSIBLE_PROB, expStub, logStub]

/-- C6 counterexample: the kNN table `knnSelf` is valid in the claim's sense
(`N = 2 ≥ 1`, uniform `K = 1 ≥ 1`, every index in `[0, N)`), yet the matrix
returned by the calibrator sums to `3/2`, not `1 ± 1e-9`: row 0 lists itself,
its whole mass lands on the diagonal, which symmetrization never rescales. -/
theorem C6_counterexample :
    (1 ≤ knnSelf.length) ∧
    (∀ i2, i2 < knnSelf.length → (knnSelf.getD i2 []).length = 1) ∧
    (∀ i2, i2 < knnSelf.length → ∀ nb ∈ knnSelf.getD i2 [],
      nb.index < knnSelf.length) ∧
    (∑ x ∈ Finset.range (knnSelf.length * knnSelf.length),
      nearest2P expStub logStub knnSelf 30 (1/10000) x) = 3/2 ∧
    ¬ |(3/2 : ℚ) - 1| ≤ 1/1000000000 := by
  refine ⟨by norm_num [knnSelf], by decide, by decide, ?_, by
    rw [show ((3 : ℚ)/2 - 1) = 1/2 from by norm_num,
      abs_of_pos (by norm_num : (0 : ℚ) < 1/2)]
    norm_num⟩
  have h0 := calibRowSelf0
  have h1 := calibRowSelf1
  norm_num [knnSelf, nearest2P, symmetrize, pairList, symStep, mupd, rawP, writes,
    rowWrites, h0, h1, List.range_succ, List.flatMap_cons, Finset.sum_range_succ]

theorem C6_mass_witness :
    ∑ x ∈ Finset.range (knnOK.length * knnOK.length),
      nearest2P expStub logStub knnOK 30 (1/10000) x = 1 :=
  C6_mass expStub logStub knnOK 30 (1/10000) 1 (by norm_num [knnOK])
    (by norm_num) (by decide) (by decide) (by decide)

end TSNE
